import Mathlib

/-!
# Verification of the PDF watermark-removal engine

A shallow embedding of the watermark detection/removal engine
(`strategies.py`, `remove_watermark.py`, `config.py`) together with proofs
of the specified properties.

Byte strings (Python `bytes` and latin1-decoded `str` values alike) are
modelled as `List Nat`, one entry per byte / code point (latin1 maps the
byte `n` to the code point `n`, so decoding is injective and total and
the two representations coincide).

The scanning loops of the source advance a cursor through a buffer; we
embed each loop as structural recursion on an explicit fuel argument, with
a wrapper passing enough fuel (more than the buffer length) for the loop
to run to completion; every loop iteration advances the cursor by at least
one position, so the fuel never runs out before the cursor passes the end
of the buffer.
-/

namespace WmRemove

/-- Bytes / code points regarded as whitespace by Python's `str.strip` and
by the regex class `\s` (these two sets agree on the latin1 range):
TAB LF VT FF CR, FS GS RS US, SPACE, NEL, NBSP. -/
def pyWs : List Nat := [9, 10, 11, 12, 13, 28, 29, 30, 31, 32, 133, 160]

/-- Whitespace test for a single byte / code point. -/
def isWsB (c : Nat) : Bool := decide (c ∈ pyWs)

/-- Python slice `s[a:b]` (for `a ≤ b`; out-of-range indices truncate). -/
def slice (s : List Nat) (a b : Nat) : List Nat := (s.drop a).take (b - a)

/-- `occursAt pat s j` holds when `pat` occurs in `s` starting at index `j`
(the whole of `pat` must fit inside `s`). -/
def occursAt (pat s : List Nat) (j : Nat) : Bool := (s.drop j).take pat.length == pat

/-- Python substring containment `pat in s`. -/
def containsSub (s pat : List Nat) : Bool :=
  (List.range (s.length + 1)).any (occursAt pat s)

/-- Fuelled body of `bytes.find`: try positions `st, st+1, ...`. -/
def bfindF (s pat : List Nat) : Nat → Nat → Option Nat
  | 0, _ => none
  | fuel + 1, st =>
    if st < s.length then
      if occursAt pat s st then some st else bfindF s pat fuel (st + 1)
    else none

/-- Python `bytes.find(pat, st)`: index of the first occurrence of `pat` in
`s` at a position `≥ st`, or `none` (Python's `-1`). -/
def bfind (s pat : List Nat) (st : Nat) : Option Nat :=
  bfindF s pat (s.length + 1) st

/-- Fuelled linear search for a single byte. -/
def findFromF (s : List Nat) (b : Nat) : Nat → Nat → Option Nat
  | 0, _ => none
  | fuel + 1, st =>
    if h : st < s.length then
      if s[st] = b then some st else findFromF s b fuel (st + 1)
    else none

/-- First index `j ≥ st` with `s[j] = b`, or `none`. -/
def findFrom (s : List Nat) (b : Nat) (st : Nat) : Option Nat :=
  findFromF s b (s.length + 1) st

/-- Latin1 decoding of a byte string, as a list of code points.  Latin1 maps
the byte `n` to the code point `n`, so on our representation decoding is the
identity; it is total (defined for every byte string), which is why the
`except:` fallback in `CommonStringRemovalStrategy.remove` that would
hex-encode the pattern can never run. -/
def latin1Decode (bs : List Nat) : List Nat := bs

/-- Python `str.strip()`: remove leading and trailing whitespace. -/
def pyStrip (s : List Nat) : List Nat :=
  ((s.dropWhile isWsB).reverse.dropWhile isWsB).reverse

/-- A frequency table (Python `collections.Counter` restricted to the
operations the code uses), kept in insertion order: `counter[k] += 1`
bumps an existing entry in place and appends a fresh key at the end. -/
def bump : List (List Nat × Nat) → List Nat → List (List Nat × Nat)
  | [], k => [(k, 1)]
  | (k', v) :: rest, k =>
    if k' = k then (k', v + 1) :: rest else (k', v) :: bump rest k

/-- The keys of a frequency table, in insertion order. -/
def ctrKeys (c : List (List Nat × Nat)) : List (List Nat) := c.map Prod.fst

/-- `Counter.most_common(1)[0]`: the entry with the highest count; CPython's
`most_common` is stable, so among tied entries the earliest-inserted wins. -/
def mostCommon1 : List (List Nat × Nat) → Option (List Nat × Nat)
  | [] => none
  | (k, v) :: rest =>
    match mostCommon1 rest with
    | none => some (k, v)
    | some (k', v') => if v' > v then some (k', v') else some (k, v)

/-! ## Basic lemmas about `occursAt`, `containsSub`, `bfind`, `findFrom` -/

theorem occursAt_iff (pat s : List Nat) (j : Nat) :
    occursAt pat s j = true ↔ (s.drop j).take pat.length = pat := by
  simp [occursAt]

theorem occursAt_infix_lem {pat s : List Nat} {j : Nat} (h : occursAt pat s j = true) :
    pat <:+: s := by
  rw [occursAt_iff] at h
  exact h ▸ ((List.take_prefix _ _).isInfix.trans (s.drop_suffix j).isInfix)

theorem occursAt_false_of_ge {pat s : List Nat} {j : Nat} (hpat : pat ≠ [])
    (hj : s.length ≤ j) : occursAt pat s j = false := by
  rw [Bool.eq_false_iff]
  intro htrue
  rw [occursAt_iff] at htrue
  rw [List.drop_eq_nil_of_le hj, List.take_nil] at htrue
  exact hpat htrue.symm

theorem containsSub_iff_exists (s pat : List Nat) :
    containsSub s pat = true ↔ ∃ j, occursAt pat s j = true := by
  constructor
  · intro h
    rcases List.any_eq_true.mp h with ⟨j, _, hj⟩
    exact ⟨j, hj⟩
  · rintro ⟨j, hj⟩
    rcases Nat.lt_or_ge j (s.length + 1) with hlt | hge
    · exact List.any_eq_true.mpr ⟨j, List.mem_range.mpr hlt, hj⟩
    · rw [occursAt_iff] at hj
      have : s.drop j = [] := List.drop_eq_nil_of_le (by omega)
      rw [this] at hj
      refine List.any_eq_true.mpr ⟨s.length, List.mem_range.mpr (by omega), ?_⟩
      rw [occursAt_iff, List.drop_length, ← hj]
      simp

theorem containsSub_iff_infix_lem (s pat : List Nat) :
    containsSub s pat = true ↔ pat <:+: s := by
  rw [containsSub_iff_exists]
  constructor
  · rintro ⟨j, hj⟩
    exact occursAt_infix_lem hj
  · rintro ⟨u, v, huv⟩
    refine ⟨u.length, ?_⟩
    rw [occursAt_iff, ← huv]
    simp [List.drop_append_eq_append_drop, List.take_append_eq_append_take]

theorem bfindF_ge (s pat : List Nat) :
    ∀ fuel st j, bfindF s pat fuel st = some j → st ≤ j := by
  intro fuel
  induction fuel with
  | zero => intro st j h; exact absurd h (by simp [bfindF])
  | succ n ih =>
    intro st j h
    rw [bfindF] at h
    by_cases hlt : st < s.length
    · rw [if_pos hlt] at h
      by_cases hocc : occursAt pat s st
      · rw [if_pos hocc] at h; injection h with h; omega
      · rw [if_neg hocc] at h; exact Nat.le_of_succ_le (ih _ _ h)
    · rw [if_neg hlt] at h; exact absurd h (by simp)

theorem bfindF_occurs (s pat : List Nat) :
    ∀ fuel st j, bfindF s pat fuel st = some j → occursAt pat s j = true := by
  intro fuel
  induction fuel with
  | zero => intro st j h; exact absurd h (by simp [bfindF])
  | succ n ih =>
    intro st j h
    rw [bfindF] at h
    by_cases hlt : st < s.length
    · rw [if_pos hlt] at h
      by_cases hocc : occursAt pat s st
      · rw [if_pos hocc] at h; injection h with h; exact h ▸ hocc
      · rw [if_neg hocc] at h; exact ih _ _ h
    · rw [if_neg hlt] at h; exact absurd h (by simp)

theorem bfindF_not_before (s pat : List Nat) :
    ∀ fuel st j, bfindF s pat fuel st = some j →
      ∀ i, st ≤ i → i < j → occursAt pat s i = false := by
  intro fuel
  induction fuel with
  | zero => intro st j h; exact absurd h (by simp [bfindF])
  | succ n ih =>
    intro st j h i hsti hij
    rw [bfindF] at h
    by_cases hlt : st < s.length
    · rw [if_pos hlt] at h
      by_cases hocc : occursAt pat s st
      · rw [if_pos hocc] at h; injection h with h; omega
      · rw [if_neg hocc] at h
        rcases Nat.eq_or_lt_of_le hsti with rfl | hgt
        · exact Bool.eq_false_iff.mpr hocc
        · exact ih _ _ h i hgt hij
    · rw [if_neg hlt] at h; exact absurd h (by simp)

theorem bfindF_none (s pat : List Nat) (hpat : pat ≠ []) :
    ∀ fuel st, s.length ≤ st + fuel → bfindF s pat fuel st = none →
      ∀ i, st ≤ i → occursAt pat s i = false := by
  intro fuel
  induction fuel with
  | zero =>
    intro st hlen _ i hsti
    exact occursAt_false_of_ge hpat (by omega)
  | succ n ih =>
    intro st hlen h i hsti
    rw [bfindF] at h
    by_cases hlt : st < s.length
    · rw [if_pos hlt] at h
      by_cases hocc : occursAt pat s st
      · rw [if_pos hocc] at h; exact absurd h (by simp)
      · rw [if_neg hocc] at h
        rcases Nat.eq_or_lt_of_le hsti with rfl | hgt
        · exact Bool.eq_false_iff.mpr hocc
        · exact ih _ (by omega) h i hgt
    · exact occursAt_false_of_ge hpat (by omega)

theorem bfindF_complete (s pat : List Nat) (hpat : pat ≠ []) :
    ∀ fuel st j, s.length ≤ st + fuel → occursAt pat s j = true → st ≤ j →
      (∀ i, st ≤ i → i < j → occursAt pat s i = false) →
      bfindF s pat fuel st = some j := by
  intro fuel
  induction fuel with
  | zero =>
    intro st j hlen hj hstj hfirst
    exfalso
    have hjlt : j < s.length := by
      by_contra hge
      rw [occursAt_false_of_ge hpat (by omega)] at hj
      exact Bool.false_ne_true hj
    omega
  | succ n ih =>
    intro st j hlen hj hstj hfirst
    have hjlt : j < s.length := by
      by_contra hge
      rw [occursAt_false_of_ge hpat (by omega)] at hj
      exact Bool.false_ne_true hj
    rw [bfindF, if_pos (by omega)]
    by_cases hocc : occursAt pat s st
    · rw [if_pos hocc]
      rcases Nat.eq_or_lt_of_le hstj with rfl | hgt
      · rfl
      · have := hfirst st le_rfl hgt
        rw [hocc] at this
        exact absurd this (by simp)
    · rw [if_neg hocc]
      have hne : st ≠ j := fun h => hocc (h ▸ hj)
      exact ih _ _ (by omega) hj (by omega) (fun i h1 h2 => hfirst i (by omega) h2)

theorem bfind_ge (s pat : List Nat) (st j : Nat) (h : bfind s pat st = some j) :
    st ≤ j := bfindF_ge s pat _ st j h

theorem bfind_occurs (s pat : List Nat) (st j : Nat) (h : bfind s pat st = some j) :
    occursAt pat s j = true := bfindF_occurs s pat _ st j h

theorem bfind_not_before (s pat : List Nat) (st j : Nat) (h : bfind s pat st = some j) :
    ∀ i, st ≤ i → i < j → occursAt pat s i = false := bfindF_not_before s pat _ st j h

theorem bfind_none (s pat : List Nat) (st : Nat) (hpat : pat ≠ [])
    (h : bfind s pat st = none) : ∀ i, st ≤ i → occursAt pat s i = false :=
  bfindF_none s pat hpat _ st (by omega) h

theorem bfind_complete (s pat : List Nat) (st j : Nat) (hpat : pat ≠ [])
    (hj : occursAt pat s j = true) (hst : st ≤ j)
    (hfirst : ∀ i, st ≤ i → i < j → occursAt pat s i = false) :
    bfind s pat st = some j :=
  bfindF_complete s pat hpat _ st j (by omega) hj hst hfirst

theorem findFromF_ge (s : List Nat) (b : Nat) :
    ∀ fuel st j, findFromF s b fuel st = some j → st ≤ j := by
  intro fuel
  induction fuel with
  | zero => intro st j h; exact absurd h (by simp [findFromF])
  | succ n ih =>
    intro st j h
    rw [findFromF] at h
    by_cases hlt : st < s.length
    · rw [dif_pos hlt] at h
      by_cases heq : s[st] = b
      · rw [if_pos heq] at h; injection h with h; omega
      · rw [if_neg heq] at h; exact Nat.le_of_succ_le (ih _ _ h)
    · rw [dif_neg hlt] at h; exact absurd h (by simp)

theorem findFromF_spec (s : List Nat) (b : Nat) :
    ∀ fuel st j, findFromF s b fuel st = some j →
      ∃ hj : j < s.length, s[j] = b ∧ ∀ i, st ≤ i → i < j → s[i]? ≠ some b := by
  intro fuel
  induction fuel with
  | zero => intro st j h; exact absurd h (by simp [findFromF])
  | succ n ih =>
    intro st j h
    rw [findFromF] at h
    by_cases hlt : st < s.length
    · rw [dif_pos hlt] at h
      by_cases heq : s[st] = b
      · rw [if_pos heq] at h
        injection h with h
        subst h
        exact ⟨hlt, heq, fun i h1 h2 => by omega⟩
      · rw [if_neg heq] at h
        obtain ⟨hj, hb, hfst⟩ := ih _ _ h
        refine ⟨hj, hb, fun i h1 h2 => ?_⟩
        rcases Nat.eq_or_lt_of_le h1 with rfl | hgt
        · simp only [ne_eq, List.getElem?_eq_getElem hlt, Option.some.injEq]
          exact heq
        · exact hfst i hgt h2
    · rw [dif_neg hlt] at h; exact absurd h (by simp)

theorem findFromF_complete (s : List Nat) (b : Nat) :
    ∀ fuel st j, s.length ≤ st + fuel → (hjlt : j < s.length) → s[j] = b → st ≤ j →
      (∀ i, st ≤ i → i < j → s[i]? ≠ some b) → findFromF s b fuel st = some j := by
  intro fuel
  induction fuel with
  | zero => intro st j hlen hjlt _ _ _; omega
  | succ n ih =>
    intro st j hlen hjlt hb hstj hfirst
    have hlt : st < s.length := by omega
    rw [findFromF, dif_pos hlt]
    by_cases heq : s[st] = b
    · rw [if_pos heq]
      rcases Nat.eq_or_lt_of_le hstj with rfl | hgt
      · rfl
      · exfalso
        apply hfirst st le_rfl hgt
        simp only [List.getElem?_eq_getElem hlt, Option.some.injEq]
        exact heq
    · rw [if_neg heq]
      have hne : st ≠ j := fun h => heq (by subst h; exact hb)
      exact ih _ _ (by omega) hjlt hb (by omega) (fun i h1 h2 => hfirst i (by omega) h2)

theorem findFrom_ge (s : List Nat) (b st j : Nat) (h : findFrom s b st = some j) :
    st ≤ j := findFromF_ge s b _ st j h

theorem findFrom_spec (s : List Nat) (b st j : Nat) (h : findFrom s b st = some j) :
    ∃ hj : j < s.length, s[j] = b ∧ ∀ i, st ≤ i → i < j → s[i]? ≠ some b :=
  findFromF_spec s b _ st j h

theorem findFrom_complete (s : List Nat) (b st j : Nat) (hjlt : j < s.length)
    (hj : s[j] = b) (hst : st ≤ j) (hfirst : ∀ i, st ≤ i → i < j → s[i]? ≠ some b) :
    findFrom s b st = some j :=
  findFromF_complete s b _ st j (by omega) hjlt hj hst hfirst

/-! ## The Pattern Scanner (bracket mode)

`tjScanGoF` embeds the `while i < len(content)` loop of
`CommonStringRemovalStrategy._find_most_frequent_text_tj_substring`
(`strategies.py`): on `(` the code searches for `b') Tj'`, on `<` for
`b'> Tj'`, on `[` for `b'] TJ'`; when the terminator is found at `e` with
`e - i < window`, the run `content[i:e+4]` (for `[`: `content[i:e+5]`) is
counted when its length is at least `minLen`, and the cursor jumps to
`e + 4` (for `[`: `e + 5`); in all other cases the cursor advances by one.
-/

/-- The terminator `b') Tj'` paired with the `(` opener. -/
def closeParenTj : List Nat := [41, 32, 84, 106]

/-- The terminator `b'> Tj'` paired with the `<` opener. -/
def closeAngleTj : List Nat := [62, 32, 84, 106]

/-- The terminator `b'] TJ'` paired with the `[` opener. -/
def closeBracketTJ : List Nat := [93, 32, 84, 74]

/-- Fuelled bracket-mode scan loop over the byte buffer `content`, from
cursor `i` with frequency table `ctr`. -/
def tjScanGoF (minLen window : Nat) (content : List Nat) :
    Nat → Nat → List (List Nat × Nat) → List (List Nat × Nat)
  | 0, _, ctr => ctr
  | fuel + 1, i, ctr =>
    if h : i < content.length then
      if content[i] = 40 then
        match bfind content closeParenTj i with
        | some e =>
          if e - i < window then
            let sub := slice content i (e + 4)
            tjScanGoF minLen window content fuel (e + 4)
              (if minLen ≤ sub.length then bump ctr sub else ctr)
          else tjScanGoF minLen window content fuel (i + 1) ctr
        | none => tjScanGoF minLen window content fuel (i + 1) ctr
      else if content[i] = 60 then
        match bfind content closeAngleTj i with
        | some e =>
          if e - i < window then
            let sub := slice content i (e + 4)
            tjScanGoF minLen window content fuel (e + 4)
              (if minLen ≤ sub.length then bump ctr sub else ctr)
          else tjScanGoF minLen window content fuel (i + 1) ctr
        | none => tjScanGoF minLen window content fuel (i + 1) ctr
      else if content[i] = 91 then
        match bfind content closeBracketTJ i with
        | some e =>
          if e - i < window then
            let sub := slice content i (e + 5)
            tjScanGoF minLen window content fuel (e + 5)
              (if minLen ≤ sub.length then bump ctr sub else ctr)
          else tjScanGoF minLen window content fuel (i + 1) ctr
        | none => tjScanGoF minLen window content fuel (i + 1) ctr
      else tjScanGoF minLen window content fuel (i + 1) ctr
    else ctr

/-- Scan one byte buffer into a frequency table `ctr`, from cursor `i`. -/
def tjScanGo (minLen window : Nat) (content : List Nat) (i : Nat)
    (ctr : List (List Nat × Nat)) : List (List Nat × Nat) :=
  tjScanGoF minLen window content (content.length + 1) i ctr

/-- Scan one byte buffer starting from cursor 0 and an empty table. -/
def tjScan (minLen window : Nat) (content : List Nat) : List (List Nat × Nat) :=
  tjScanGo minLen window content 0 []

/-! ## Graphics-block segmentation and removal

`_remove_watermark_from_page` decodes the stream with latin1, collects
`re.findall(r"q\s+.*?Q", raw_str, flags=re.DOTALL)` and, for each collected
block that contains the target string, removes every occurrence of that
block text via `str.replace(block, "")`.

A match of `q\s+.*?Q` starting at `i` requires `s[i] = 'q'` and a whitespace
character at `i + 1`; `\s+` is greedy and `.*?` lazy, and no whitespace
character equals `'Q'`, so the match always ends at the first `'Q'` at an
index `≥ i + 2`.  `re.findall` takes the leftmost match, then resumes
scanning just past it.
-/

/-- End index of a regex match of `q\s+.*?Q` starting at `i` (the index of
the closing `Q`), if the regex matches there. -/
def qMatchEnd (s : List Nat) (i : Nat) : Option Nat :=
  match s[i]?, s[i + 1]? with
  | some c, some d => if c = 113 ∧ isWsB d then findFrom s 81 (i + 2) else none
  | _, _ => none

theorem qMatchEnd_ge (s : List Nat) (i j : Nat) (h : qMatchEnd s i = some j) :
    i + 2 ≤ j := by
  rw [qMatchEnd] at h
  rcases hc : s[i]? with _ | c <;> rcases hd : s[i + 1]? with _ | d <;>
    rw [hc, hd] at h
  · exact Option.noConfusion h
  · exact Option.noConfusion h
  · exact Option.noConfusion h
  · have h' : (if c = 113 ∧ isWsB d = true then findFrom s 81 (i + 2) else none)
        = some j := h
    by_cases hcd : c = 113 ∧ isWsB d = true
    · rw [if_pos hcd] at h'
      exact findFrom_ge s 81 (i + 2) j h'
    · rw [if_neg hcd] at h'
      exact Option.noConfusion h'

/-- Fuelled `re.findall` scan: all matches of `q\s+.*?Q` (non-overlapping,
leftmost first) from position `p` on. -/
def findBlocksGoF (s : List Nat) : Nat → Nat → List (List Nat)
  | 0, _ => []
  | fuel + 1, p =>
    if p < s.length then
      match qMatchEnd s p with
      | some j => slice s p (j + 1) :: findBlocksGoF s fuel (j + 1)
      | none => findBlocksGoF s fuel (p + 1)
    else []

/-- All regex matches from position `p` on. -/
def findBlocksGo (s : List Nat) (p : Nat) : List (List Nat) :=
  findBlocksGoF s (s.length + 1) p

/-- `re.findall(r"q\s+.*?Q", s, flags=re.DOTALL)`. -/
def findBlocks (s : List Nat) : List (List Nat) := findBlocksGo s 0

/-- Fuelled body of `str.replace(old, "")`. -/
def replaceAllF (old : List Nat) : Nat → List Nat → List Nat
  | _, [] => []
  | 0, s => s
  | fuel + 1, a :: rest =>
    if old ≠ [] ∧ old.isPrefixOf (a :: rest) then
      replaceAllF old fuel ((a :: rest).drop old.length)
    else a :: replaceAllF old fuel rest

/-- Python `s.replace(old, "")`: remove all (non-overlapping, left-to-right)
occurrences of `old` from `s`. -/
def replaceAll (s old : List Nat) : List Nat := replaceAllF old s.length s

/-- Per-stream body of `_remove_watermark_from_page`: segment into blocks,
remove every block that contains the target, and count removed blocks. -/
def removeFromStream (target raw : List Nat) : List Nat × Nat :=
  (findBlocks raw).foldl
    (fun acc blk =>
      if containsSub blk target then (replaceAll acc.1 blk, acc.2 + 1) else acc)
    (raw, 0)

/-! ## Document model and the two removal strategies -/

/-- One embedded-image descriptor as `page.get_image_info(xrefs=True)`
reports it. -/
structure ImageInfo where
  xref : Nat
  width : Nat
  height : Nat
deriving DecidableEq, Repr

/-- One page: its content streams (decoded bytes, in `get_contents` order)
and its image descriptors. -/
structure PageData where
  streams : List (List Nat)
  images : List ImageInfo
deriving DecidableEq, Repr

/-- A document: producer metadata (absent modelled as `none`) and pages. -/
structure PdfDocument where
  producer : Option (List Nat)
  pages : List PageData
deriving DecidableEq, Repr

/-- The failure a strategy raises on a zero-page document
(`InvalidPDFError("PDF has no pages")`, re-wrapped at the strategy boundary
as a `PDFProcessingError`; the spec's taxonomy calls it `EmptyDocument`). -/
inductive RemovalError where
  | emptyDocument
deriving DecidableEq, Repr

instance {ε α : Type} [DecidableEq ε] [DecidableEq α] : DecidableEq (Except ε α) :=
  fun x y =>
    match x, y with
    | .error a, .error b => if h : a = b then isTrue (by rw [h]) else isFalse (by simp [h])
    | .ok a, .ok b => if h : a = b then isTrue (by rw [h]) else isFalse (by simp [h])
    | .error _, .ok _ => isFalse (by simp)
    | .ok _, .error _ => isFalse (by simp)

/-- `doc.metadata.get("producer", "")`. -/
def producerString (doc : PdfDocument) : List Nat := doc.producer.getD []

/-- `XRefImageRemovalStrategy._find_watermark_xref`: first image whose
`(width, height)` equals a configured pattern, scanned in report order,
patterns in configured order. -/
def findWatermarkXref (patterns : List (Nat × Nat)) (page : PageData) : Option Nat :=
  page.images.findSome? fun im =>
    if patterns.any (fun p => im.width = p.1 ∧ im.height = p.2) then some im.xref
    else none

/-- The host collaborator's `page.delete_image(xref)`. -/
def deleteImage (page : PageData) (x : Nat) : PageData :=
  { page with images := page.images.filter (fun im => im.xref ≠ x) }

/-- `XRefImageRemovalStrategy.remove`: fail on a zero-page document; find a
watermark image on the first page; if none (or the falsy xref 0), report
`false`; otherwise delete it and report `true`. -/
def xrefRemove (patterns : List (Nat × Nat)) (doc : PdfDocument) :
    Except RemovalError (Bool × PdfDocument) :=
  match doc.pages with
  | [] => .error .emptyDocument
  | p0 :: rest =>
    match findWatermarkXref patterns p0 with
    | none => .ok (false, doc)
    | some x =>
      -- Python `if not target_xref` also treats the xref id 0 as "not found"
      if x = 0 then .ok (false, doc)
      else .ok (true, { doc with pages := deleteImage p0 x :: rest })

/-- The document-wide frequency table: every content stream of every page
scanned into one table (the nested loops of
`_find_most_frequent_text_tj_substring`). -/
def docCounter (minLen window : Nat) (doc : PdfDocument) : List (List Nat × Nat) :=
  doc.pages.foldl
    (fun ctr pg => pg.streams.foldl (fun c s => tjScanGo minLen window s 0 c) ctr) []

/-- `CommonStringRemovalStrategy.remove`: fail on a zero-page document;
build the document-wide table and take `most_common(1)`; if the table is
empty (or the winner is falsy / has count `< 1`) report `false`; otherwise
strip-decode the winner and delete, on every page and stream, every
`q...Q` block containing it, reporting `true`. -/
def commonStringRemove (minLen window : Nat) (doc : PdfDocument) :
    Except RemovalError (Bool × PdfDocument) :=
  if doc.pages.isEmpty then .error .emptyDocument
  else
    match mostCommon1 (docCounter minLen window doc) with
    | none => .ok (false, doc)
    | some (p, freq) =>
      if p.isEmpty ∨ freq < 1 then .ok (false, doc)
      else
        let target := pyStrip (latin1Decode p)
        .ok (true, { doc with pages := doc.pages.map fun pg =>
          { pg with streams := pg.streams.map fun s => (removeFromStream target s).1 } })

/-- Which removal strategy the host selects. -/
inductive StrategyChoice where
  | xrefImage
  | commonString
deriving DecidableEq, Repr

/-- The bytes of the literal `'Version'`. -/
def versionBytes : List Nat := [86, 101, 114, 115, 105, 111, 110]

/-- `WatermarkRemover.remove_watermark` routing:
`if 'Version' in doc.metadata.get('producer', '')` — a hard-coded literal,
not the configured trigger list. -/
def selectStrategy (doc : PdfDocument) : StrategyChoice :=
  if containsSub (producerString doc) versionBytes then .xrefImage else .commonString

/-- `XRefImageRemovalStrategy.can_handle`: any configured trigger substring
occurs in the producer string. -/
def xrefCanHandle (trigs : List (List Nat)) (doc : PdfDocument) : Bool :=
  trigs.any fun t => containsSub (producerString doc) t

/-- `CommonStringRemovalStrategy.can_handle`: always true (fallback). -/
def commonCanHandle (_doc : PdfDocument) : Bool := true

/-- Default `MIN_PATTERN_LENGTH`. -/
def defaultMinPatternLength : Nat := 30

/-- Default `PATTERN_SEARCH_WINDOW`. -/
def defaultPatternSearchWindow : Nat := 300

/-- Default `XREF_PRODUCER_PATTERNS` (`["Version"]`). -/
def defaultXrefProducerPatterns : List (List Nat) := [versionBytes]

/-! ## The `Config` singleton (`config.py`)

`Config.__new__` creates and initialises an instance only when the class
attribute `_instance` is `None`, and always returns `_instance`; `Config`
defines no `__init__`, so nothing re-runs on later constructions.  We model
the class attribute as explicit state threaded through the constructor. -/

/-- The configuration values a `Config` instance carries (the subset the
strategies read), plus the file it was initialised from. -/
structure ConfigData where
  sourceFile : Option String
  minPatternLength : Nat
  patternSearchWindow : Nat
  xrefProducerPatterns : List (List Nat)
deriving DecidableEq, Repr

/-- `Config._init(config_file)`: defaults, then file overrides (the file, if
given, is consulted only here; we record which file was used). -/
def initConfig (configFile : Option String) : ConfigData :=
  { sourceFile := configFile
    minPatternLength := defaultMinPatternLength
    patternSearchWindow := defaultPatternSearchWindow
    xrefProducerPatterns := defaultXrefProducerPatterns }

/-- The class attribute `Config._instance`. -/
def ConfigState := Option ConfigData

/-- `Config.__new__(cls, config_file)` as a state transition: create and
initialise only when no instance exists, else return the existing instance
unchanged (the `config_file` argument is ignored in that case). -/
def configNew (configFile : Option String) (st : ConfigState) :
    ConfigData × ConfigState :=
  match st with
  | none => let inst := initConfig configFile; (inst, some inst)
  | some inst => (inst, some inst)

/-- Run a sequence of `Config(...)` calls in one process (initial state: no
instance), returning the instances each call observed. -/
def configCalls : List (Option String) → ConfigState → List ConfigData
  | [], _ => []
  | cf :: rest, st =>
    let (inst, st') := configNew cf st
    inst :: configCalls rest st'

/-! ## Spec-side scanners for the bracket-mode scan (claim C2)

`specFindWithin` searches for the terminator only within the window, as the
spec words it ("search forward for its terminator within `W` bytes");
`specScanClaim` is the scanner exactly as the claim states it (run always
`content[i:e+4]`, i.e. through the terminator and nothing beyond; cursor to
the first byte past the terminator on success, and one byte forward whenever
the terminator is missing or the run is shorter than `L`), and
`specScanAmended` is the scanner as the amended claim states it (matching
the code: on a terminator found within the window the cursor always jumps
past it, recording only when the run is long enough; the `[` form records
`content[i:e+5]` — one byte beyond its four-byte terminator — and jumps to
`e + 5`). -/

/-- Fuelled window-bounded search: first occurrence of `pat` at a position
`j` with `st ≤ j` and `j - st < w`, looking only inside that window. -/
def specFindWithinGoF (s pat : List Nat) (st w : Nat) : Nat → Nat → Option Nat
  | 0, _ => none
  | fuel + 1, j =>
    if j < s.length ∧ j - st < w then
      if occursAt pat s j then some j else specFindWithinGoF s pat st w fuel (j + 1)
    else none

/-- Search for `pat` starting at `st`, within a window of `w` bytes. -/
def specFindWithin (s pat : List Nat) (st w : Nat) : Option Nat :=
  specFindWithinGoF s pat st w (s.length + 1) st

/-- Fuelled bracket-mode scanner exactly as claim C2 words it. -/
def specScanClaimF (minLen window : Nat) (content : List Nat) :
    Nat → Nat → List (List Nat × Nat) → List (List Nat × Nat)
  | 0, _, ctr => ctr
  | fuel + 1, i, ctr =>
    if h : i < content.length then
      if content[i] = 40 then
        match specFindWithin content closeParenTj i window with
        | some e =>
          let run := slice content i (e + 4)
          if minLen ≤ run.length then
            specScanClaimF minLen window content fuel (e + 4) (bump ctr run)
          else specScanClaimF minLen window content fuel (i + 1) ctr
        | none => specScanClaimF minLen window content fuel (i + 1) ctr
      else if content[i] = 60 then
        match specFindWithin content closeAngleTj i window with
        | some e =>
          let run := slice content i (e + 4)
          if minLen ≤ run.length then
            specScanClaimF minLen window content fuel (e + 4) (bump ctr run)
          else specScanClaimF minLen window content fuel (i + 1) ctr
        | none => specScanClaimF minLen window content fuel (i + 1) ctr
      else if content[i] = 91 then
        match specFindWithin content closeBracketTJ i window with
        | some e =>
          let run := slice content i (e + 4)
          if minLen ≤ run.length then
            specScanClaimF minLen window content fuel (e + 4) (bump ctr run)
          else specScanClaimF minLen window content fuel (i + 1) ctr
        | none => specScanClaimF minLen window content fuel (i + 1) ctr
      else specScanClaimF minLen window content fuel (i + 1) ctr
    else ctr

/-- The scanner of claim C2, over a whole buffer. -/
def specScanClaim (minLen window : Nat) (content : List Nat) :
    List (List Nat × Nat) :=
  specScanClaimF minLen window content (content.length + 1) 0 []

/-- Fuelled bracket-mode scanner as the amended claim C2 words it. -/
def specScanAmendedF (minLen window : Nat) (content : List Nat) :
    Nat → Nat → List (List Nat × Nat) → List (List Nat × Nat)
  | 0, _, ctr => ctr
  | fuel + 1, i, ctr =>
    if h : i < content.length then
      if content[i] = 40 then
        match specFindWithin content closeParenTj i window with
        | some e =>
          let run := slice content i (e + 4)
          specScanAmendedF minLen window content fuel (e + 4)
            (if minLen ≤ run.length then bump ctr run else ctr)
        | none => specScanAmendedF minLen window content fuel (i + 1) ctr
      else if content[i] = 60 then
        match specFindWithin content closeAngleTj i window with
        | some e =>
          let run := slice content i (e + 4)
          specScanAmendedF minLen window content fuel (e + 4)
            (if minLen ≤ run.length then bump ctr run else ctr)
        | none => specScanAmendedF minLen window content fuel (i + 1) ctr
      else if content[i] = 91 then
        match specFindWithin content closeBracketTJ i window with
        | some e =>
          let run := slice content i (e + 5)
          specScanAmendedF minLen window content fuel (e + 5)
            (if minLen ≤ run.length then bump ctr run else ctr)
        | none => specScanAmendedF minLen window content fuel (i + 1) ctr
      else specScanAmendedF minLen window content fuel (i + 1) ctr
    else ctr

/-- The scanner of the amended claim C2, over a whole buffer. -/
def specScanAmended (minLen window : Nat) (content : List Nat) :
    List (List Nat × Nat) :=
  specScanAmendedF minLen window content (content.length + 1) 0 []

/-! ## Qualifying runs (claim C8) -/

/-- Does the terminator `term`, first found from `i`, qualify a run opened
at `i` (found within the window, and run of at least the minimum length)? -/
def qualTermB (minLen window : Nat) (s : List Nat) (i : Nat) (term : List Nat)
    (extra : Nat) : Bool :=
  match bfind s term i with
  | some e => decide (e - i < window) && decide (minLen ≤ (slice s i (e + extra)).length)
  | none => false

/-- A position `i` of `s` where the scan-loop's record conditions hold: an
opening marker at `i`, its terminator first found at `e` with
`e - i < window`, and the captured run at least `minLen` long. -/
def qualifyingRunAt (minLen window : Nat) (s : List Nat) (i : Nat) : Bool :=
  ((s[i]? == some 40) && qualTermB minLen window s i closeParenTj 4)
  || ((s[i]? == some 60) && qualTermB minLen window s i closeAngleTj 4)
  || ((s[i]? == some 91) && qualTermB minLen window s i closeBracketTJ 5)

/-- `s` contains at least one qualifying bracket run. -/
def hasQualifyingRun (minLen window : Nat) (s : List Nat) : Bool :=
  (List.range s.length).any (qualifyingRunAt minLen window s)

/-! ## Frequency-table lemmas -/

theorem bump_keys (ctr : List (List Nat × Nat)) (key : List Nat) :
    ctrKeys (bump ctr key) =
      if key ∈ ctrKeys ctr then ctrKeys ctr else ctrKeys ctr ++ [key] := by
  induction ctr with
  | nil => simp [bump, ctrKeys]
  | cons e rest ih =>
    obtain ⟨k', v⟩ := e
    rw [bump]
    by_cases hk : k' = key
    · subst hk
      simp [ctrKeys]
    · rw [if_neg hk]
      simp only [ctrKeys, List.map_cons, List.mem_cons] at ih ⊢
      have hne : ¬key = k' := fun h => hk h.symm
      by_cases hmem : key ∈ List.map Prod.fst rest
      · rw [if_pos (Or.inr hmem)]
        rw [if_pos hmem] at ih
        rw [ih]
      · rw [if_neg (by push_neg; exact ⟨hne, hmem⟩)]
        rw [if_neg hmem] at ih
        rw [ih]
        simp

theorem bump_mem (ctr : List (List Nat × Nat)) (key : List Nat) :
    ∀ e ∈ bump ctr key, e ∈ ctr ∨ (∃ v, (e.1, v) ∈ ctr ∧ e.2 = v + 1) ∨ e = (key, 1) := by
  induction ctr with
  | nil =>
    intro e he
    rw [bump] at he
    simp at he
    right; right; exact he
  | cons hd rest ih =>
    obtain ⟨k', v⟩ := hd
    intro e he
    rw [bump] at he
    by_cases hk : k' = key
    · rw [if_pos hk] at he
      rcases List.mem_cons.mp he with rfl | hmem
      · right; left; exact ⟨v, List.mem_cons_self _ _, rfl⟩
      · left; exact List.mem_cons_of_mem _ hmem
    · rw [if_neg hk] at he
      rcases List.mem_cons.mp he with rfl | hmem
      · left; exact List.mem_cons_self _ _
      · rcases ih e hmem with h | h | h
        · left; exact List.mem_cons_of_mem _ h
        · right; left
          obtain ⟨w, hw, he2⟩ := h
          exact ⟨w, List.mem_cons_of_mem _ hw, he2⟩
        · right; right; exact h

theorem bump_counts_pos (ctr : List (List Nat × Nat)) (key : List Nat)
    (h : ∀ e ∈ ctr, 1 ≤ e.2) : ∀ e ∈ bump ctr key, 1 ≤ e.2 := by
  intro e he
  rcases bump_mem ctr key e he with hm | hm | hm
  · exact h e hm
  · obtain ⟨v, _, he2⟩ := hm
    omega
  · rw [hm]

theorem mostCommon1_eq_none_iff (c : List (List Nat × Nat)) :
    mostCommon1 c = none ↔ c = [] := by
  constructor
  · intro h
    cases c with
    | nil => rfl
    | cons e rest =>
      obtain ⟨k, v⟩ := e
      rw [mostCommon1] at h
      cases hr : mostCommon1 rest with
      | none => rw [hr] at h; exact absurd h (by simp)
      | some e' =>
        obtain ⟨k', v'⟩ := e'
        simp only [hr] at h
        by_cases hv : v' > v
        · rw [if_pos hv] at h; exact absurd h (by simp)
        · rw [if_neg hv] at h; exact absurd h (by simp)
  · intro h; subst h; rfl

theorem mostCommon1_mem (c : List (List Nat × Nat)) (e : List Nat × Nat)
    (h : mostCommon1 c = some e) : e ∈ c := by
  induction c generalizing e with
  | nil => exact absurd h (by simp [mostCommon1])
  | cons hd rest ih =>
    obtain ⟨k, v⟩ := hd
    rw [mostCommon1] at h
    cases hr : mostCommon1 rest with
    | none =>
      simp only [hr] at h
      injection h with h
      exact h ▸ List.mem_cons_self _ _
    | some e' =>
      obtain ⟨k', v'⟩ := e'
      simp only [hr] at h
      by_cases hv : v' > v
      · rw [if_pos hv] at h
        injection h with h
        exact List.mem_cons_of_mem _ (h ▸ ih _ hr)
      · rw [if_neg hv] at h
        injection h with h
        exact h ▸ List.mem_cons_self _ _

theorem mem_keys_bump (ctr : List (List Nat × Nat)) (key k : List Nat)
    (h : k ∈ ctrKeys (bump ctr key)) : k ∈ ctrKeys ctr ∨ k = key := by
  rw [bump_keys] at h
  by_cases hmem : key ∈ ctrKeys ctr
  · rw [if_pos hmem] at h; exact Or.inl h
  · rw [if_neg hmem] at h
    rcases List.mem_append.mp h with h | h
    · exact Or.inl h
    · right; simpa using h

/-! ## What the scanner can record -/

/-- A byte run the scan loop is able to record from buffer `s`: an opening
marker at some `i`, the terminator first found at `e` within the window,
and the run being the corresponding slice. -/
def recordedRun (window : Nat) (s k : List Nat) : Prop :=
  ∃ i e, i < s.length ∧
    ((s[i]? = some 40 ∧ bfind s closeParenTj i = some e ∧ e - i < window ∧
        k = slice s i (e + 4)) ∨
     (s[i]? = some 60 ∧ bfind s closeAngleTj i = some e ∧ e - i < window ∧
        k = slice s i (e + 4)) ∨
     (s[i]? = some 91 ∧ bfind s closeBracketTJ i = some e ∧ e - i < window ∧
        k = slice s i (e + 5)))

theorem slice_head (s : List Nat) (i b : Nat) (hi : i < s.length) (hib : i < b) :
    (slice s i b).head? = s[i]? := by
  rw [slice]
  rcases hd : s.drop i with _ | ⟨a, t⟩
  · have hlen := s.length_drop i
    rw [hd] at hlen
    simp at hlen
    omega
  · have hb : b - i = (b - i - 1) + 1 := by omega
    rw [hb, List.take_succ_cons, List.head?_cons]
    have : s[i]? = (s.drop i).head? := by
      rw [List.head?_eq_getElem?, List.getElem?_drop]
      simp
    rw [this, hd, List.head?_cons]

theorem slice_infix_lem (s : List Nat) (a b : Nat) : slice s a b <:+: s :=
  (List.take_prefix _ _).isInfix.trans (s.drop_suffix a).isInfix

theorem recordedRun_head {w : Nat} {s k : List Nat} (h : recordedRun w s k) :
    k.head? = some 40 ∨ k.head? = some 60 ∨ k.head? = some 91 := by
  obtain ⟨i, e, hi, hcase⟩ := h
  rcases hcase with ⟨hm, hf, _, hk⟩ | ⟨hm, hf, _, hk⟩ | ⟨hm, hf, _, hk⟩
  · left
    have hge := bfind_ge _ _ _ _ hf
    rw [hk, slice_head s i (e + 4) hi (by omega)]
    exact hm
  · right; left
    have hge := bfind_ge _ _ _ _ hf
    rw [hk, slice_head s i (e + 4) hi (by omega)]
    exact hm
  · right; right
    have hge := bfind_ge _ _ _ _ hf
    rw [hk, slice_head s i (e + 5) hi (by omega)]
    exact hm

theorem recordedRun_ne_nil {w : Nat} {s k : List Nat} (h : recordedRun w s k) :
    k ≠ [] := by
  rcases recordedRun_head h with hh | hh | hh <;>
    exact fun hnil => by rw [hnil] at hh; exact Option.noConfusion hh

theorem recordedRun_infix_lem {w : Nat} {s k : List Nat} (h : recordedRun w s k) :
    k <:+: s := by
  obtain ⟨i, e, hi, hcase⟩ := h
  rcases hcase with ⟨_, _, _, hk⟩ | ⟨_, _, _, hk⟩ | ⟨_, _, _, hk⟩ <;>
    exact hk ▸ slice_infix_lem s i _

theorem tjScanGoF_keys (minLen window : Nat) (s : List Nat) :
    ∀ fuel i ctr k, k ∈ ctrKeys (tjScanGoF minLen window s fuel i ctr) →
      k ∈ ctrKeys ctr ∨ recordedRun window s k := by
  intro fuel
  induction fuel with
  | zero => intro i ctr k h; exact Or.inl h
  | succ n ih =>
    intro i ctr k h
    rw [tjScanGoF] at h
    by_cases hlen : i < s.length
    · rw [dif_pos hlen] at h
      by_cases h40 : s[i] = 40
      · rw [if_pos h40] at h
        rcases hfind : bfind s closeParenTj i with _ | e <;> simp only [hfind] at h
        · exact ih _ _ _ h
        · by_cases hwin : e - i < window
          · rw [if_pos hwin] at h
            rcases ih _ _ _ h with hk | hk
            · by_cases hmin : minLen ≤ (slice s i (e + 4)).length
              · rw [if_pos hmin] at hk
                rcases mem_keys_bump _ _ _ hk with hk' | hk'
                · exact Or.inl hk'
                · refine Or.inr ⟨i, e, hlen, Or.inl ⟨?_, hfind, hwin, hk'⟩⟩
                  rw [List.getElem?_eq_getElem hlen, h40]
              · rw [if_neg hmin] at hk
                exact Or.inl hk
            · exact Or.inr hk
          · rw [if_neg hwin] at h
            exact ih _ _ _ h
      · rw [if_neg h40] at h
        by_cases h60 : s[i] = 60
        · rw [if_pos h60] at h
          rcases hfind : bfind s closeAngleTj i with _ | e <;> simp only [hfind] at h
          · exact ih _ _ _ h
          · by_cases hwin : e - i < window
            · rw [if_pos hwin] at h
              rcases ih _ _ _ h with hk | hk
              · by_cases hmin : minLen ≤ (slice s i (e + 4)).length
                · rw [if_pos hmin] at hk
                  rcases mem_keys_bump _ _ _ hk with hk' | hk'
                  · exact Or.inl hk'
                  · refine Or.inr ⟨i, e, hlen, Or.inr (Or.inl ⟨?_, hfind, hwin, hk'⟩)⟩
                    rw [List.getElem?_eq_getElem hlen, h60]
                · rw [if_neg hmin] at hk
                  exact Or.inl hk
              · exact Or.inr hk
            · rw [if_neg hwin] at h
              exact ih _ _ _ h
        · rw [if_neg h60] at h
          by_cases h91 : s[i] = 91
          · rw [if_pos h91] at h
            rcases hfind : bfind s closeBracketTJ i with _ | e <;> simp only [hfind] at h
            · exact ih _ _ _ h
            · by_cases hwin : e - i < window
              · rw [if_pos hwin] at h
                rcases ih _ _ _ h with hk | hk
                · by_cases hmin : minLen ≤ (slice s i (e + 5)).length
                  · rw [if_pos hmin] at hk
                    rcases mem_keys_bump _ _ _ hk with hk' | hk'
                    · exact Or.inl hk'
                    · refine Or.inr ⟨i, e, hlen, Or.inr (Or.inr ⟨?_, hfind, hwin, hk'⟩)⟩
                      rw [List.getElem?_eq_getElem hlen, h91]
                  · rw [if_neg hmin] at hk
                    exact Or.inl hk
                · exact Or.inr hk
              · rw [if_neg hwin] at h
                exact ih _ _ _ h
          · rw [if_neg h91] at h
            exact ih _ _ _ h
    · rw [dif_neg hlen] at h
      exact Or.inl h

theorem tjScanGoF_counts (minLen window : Nat) (s : List Nat) :
    ∀ fuel i ctr, (∀ e ∈ ctr, 1 ≤ e.2) →
      ∀ e ∈ tjScanGoF minLen window s fuel i ctr, 1 ≤ e.2 := by
  intro fuel
  induction fuel with
  | zero => intro i ctr hctr e he; exact hctr e he
  | succ n ih =>
    intro i ctr hctr
    rw [tjScanGoF]
    by_cases hlen : i < s.length
    · rw [dif_pos hlen]
      by_cases h40 : s[i] = 40
      · rw [if_pos h40]
        rcases hfind : bfind s closeParenTj i with _ | e <;> simp only [hfind]
        · exact ih _ _ hctr
        · by_cases hwin : e - i < window
          · rw [if_pos hwin]
            refine ih _ _ ?_
            by_cases hmin : minLen ≤ (slice s i (e + 4)).length
            · rw [if_pos hmin]; exact bump_counts_pos _ _ hctr
            · rw [if_neg hmin]; exact hctr
          · rw [if_neg hwin]; exact ih _ _ hctr
      · rw [if_neg h40]
        by_cases h60 : s[i] = 60
        · rw [if_pos h60]
          rcases hfind : bfind s closeAngleTj i with _ | e <;> simp only [hfind]
          · exact ih _ _ hctr
          · by_cases hwin : e - i < window
            · rw [if_pos hwin]
              refine ih _ _ ?_
              by_cases hmin : minLen ≤ (slice s i (e + 4)).length
              · rw [if_pos hmin]; exact bump_counts_pos _ _ hctr
              · rw [if_neg hmin]; exact hctr
            · rw [if_neg hwin]; exact ih _ _ hctr
        · rw [if_neg h60]
          by_cases h91 : s[i] = 91
          · rw [if_pos h91]
            rcases hfind : bfind s closeBracketTJ i with _ | e <;> simp only [hfind]
            · exact ih _ _ hctr
            · by_cases hwin : e - i < window
              · rw [if_pos hwin]
                refine ih _ _ ?_
                by_cases hmin : minLen ≤ (slice s i (e + 5)).length
                · rw [if_pos hmin]; exact bump_counts_pos _ _ hctr
                · rw [if_neg hmin]; exact hctr
              · rw [if_neg hwin]; exact ih _ _ hctr
          · rw [if_neg h91]; exact ih _ _ hctr
    · rw [dif_neg hlen]; exact hctr

theorem foldl_streams_keys (minLen window : Nat) :
    ∀ (ss : List (List Nat)) (ctr : List (List Nat × Nat)) (k : List Nat),
      k ∈ ctrKeys (ss.foldl (fun c s => tjScanGo minLen window s 0 c) ctr) →
      k ∈ ctrKeys ctr ∨ ∃ s ∈ ss, recordedRun window s k := by
  intro ss
  induction ss with
  | nil => intro ctr k h; exact Or.inl h
  | cons s rest ih =>
    intro ctr k h
    rw [List.foldl_cons] at h
    rcases ih _ _ h with hk | hk
    · rcases tjScanGoF_keys minLen window s _ _ _ _ hk with hk' | hk'
      · exact Or.inl hk'
      · exact Or.inr ⟨s, List.mem_cons_self _ _, hk'⟩
    · obtain ⟨s', hs', hr⟩ := hk
      exact Or.inr ⟨s', List.mem_cons_of_mem _ hs', hr⟩

theorem docCounter_keys (minLen window : Nat) (doc : PdfDocument) (k : List Nat)
    (h : k ∈ ctrKeys (docCounter minLen window doc)) :
    ∃ pg ∈ doc.pages, ∃ s ∈ pg.streams, recordedRun window s k := by
  rw [docCounter] at h
  suffices hgen : ∀ (pgs : List PageData) (ctr : List (List Nat × Nat)),
      k ∈ ctrKeys (pgs.foldl
        (fun ctr pg => pg.streams.foldl (fun c s => tjScanGo minLen window s 0 c) ctr) ctr) →
      k ∈ ctrKeys ctr ∨ ∃ pg ∈ pgs, ∃ s ∈ pg.streams, recordedRun window s k by
    rcases hgen doc.pages [] h with hk | hk
    · exact absurd hk (by simp [ctrKeys])
    · exact hk
  intro pgs
  induction pgs with
  | nil => intro ctr h; exact Or.inl h
  | cons pg rest ih =>
    intro ctr h
    rw [List.foldl_cons] at h
    rcases ih _ h with hk | hk
    · rcases foldl_streams_keys minLen window _ _ _ hk with hk' | hk'
      · exact Or.inl hk'
      · obtain ⟨s, hs, hr⟩ := hk'
        exact Or.inr ⟨pg, List.mem_cons_self _ _, s, hs, hr⟩
    · obtain ⟨pg', hpg', hrest⟩ := hk
      exact Or.inr ⟨pg', List.mem_cons_of_mem _ hpg', hrest⟩

theorem docCounter_counts (minLen window : Nat) (doc : PdfDocument) :
    ∀ e ∈ docCounter minLen window doc, 1 ≤ e.2 := by
  rw [docCounter]
  suffices hgen : ∀ (pgs : List PageData) (ctr : List (List Nat × Nat)),
      (∀ e ∈ ctr, 1 ≤ e.2) →
      ∀ e ∈ pgs.foldl
        (fun ctr pg => pg.streams.foldl (fun c s => tjScanGo minLen window s 0 c) ctr) ctr,
        1 ≤ e.2 by
    exact hgen doc.pages [] (by simp)
  intro pgs
  induction pgs with
  | nil => intro ctr h; exact h
  | cons pg rest ih =>
    intro ctr hctr
    rw [List.foldl_cons]
    refine ih _ ?_
    suffices hstr : ∀ (ss : List (List Nat)) (ctr : List (List Nat × Nat)),
        (∀ e ∈ ctr, 1 ≤ e.2) →
        ∀ e ∈ ss.foldl (fun c s => tjScanGo minLen window s 0 c) ctr, 1 ≤ e.2 by
      exact hstr pg.streams ctr hctr
    intro ss
    induction ss with
    | nil => intro ctr h; exact h
    | cons s rest' ih' =>
      intro ctr hctr
      rw [List.foldl_cons]
      exact ih' _ (tjScanGoF_counts minLen window s _ 0 ctr hctr)

/-! ## Claim theorems -/

/-- C6.  The Frequency Selector returns an entry of maximal count and, among
the entries of maximal count, the one whose first occurrence was inserted
earliest during table construction (the table is kept in insertion order:
`bump` appends a fresh key at the end and bumps an existing key in place,
as the second conjunct states); the selector is a pure function of the
table, hence deterministic across repeated runs on identical input. -/
theorem frequencySelector_max_earliest :
    (∀ c : List (List Nat × Nat), c ≠ [] →
      ∃ k v l1 l2, mostCommon1 c = some (k, v) ∧ c = l1 ++ (k, v) :: l2 ∧
        (∀ e ∈ c, e.2 ≤ v) ∧ (∀ e ∈ l1, e.2 < v))
    ∧ (∀ ctr key, ctrKeys (bump ctr key) =
        if key ∈ ctrKeys ctr then ctrKeys ctr else ctrKeys ctr ++ [key]) := by
  constructor
  · intro c
    induction c with
    | nil => intro h; exact absurd rfl h
    | cons hd rest ih =>
      intro _
      obtain ⟨k, v⟩ := hd
      cases hr : mostCommon1 rest with
      | none =>
        have hrest : rest = [] := (mostCommon1_eq_none_iff rest).mp hr
        subst hrest
        exact ⟨k, v, [], [], by rfl, by simp, by simp, by simp⟩
      | some e' =>
        obtain ⟨k2, v2, l1, l2, h1, h2, h3, h4⟩ :=
          ih (fun hnil => by rw [hnil] at hr; exact absurd hr (by simp [mostCommon1]))
        rw [h1] at hr
        injection hr with hr
        obtain ⟨k', v'⟩ := e'
        injection hr with hrk hrv
        subst hrk hrv
        by_cases hv : v2 > v
        · refine ⟨k2, v2, (k, v) :: l1, l2, ?_, by rw [h2]; simp, ?_, ?_⟩
          · simp only [mostCommon1, h1]
            rw [if_pos hv]
          · intro e he
            rcases List.mem_cons.mp he with rfl | hmem
            · omega
            · exact h3 e hmem
          · intro e he
            rcases List.mem_cons.mp he with rfl | hmem
            · omega
            · exact h4 e hmem
        · refine ⟨k, v, [], rest, ?_, by simp, ?_, by simp⟩
          · simp only [mostCommon1, h1]
            rw [if_neg hv]
          · intro e he
            rcases List.mem_cons.mp he with rfl | hmem
            · omega
            · have := h3 e hmem
              omega
  · exact bump_keys

/-- C6 witness: the selector on a concrete two-way tie picks the
earlier-inserted entry. -/
theorem frequencySelector_max_earliest_witness :
    ([([40, 97], 2), ([40, 98], 2)] : List (List Nat × Nat)) ≠ [] ∧
      ∃ k v l1 l2, mostCommon1 [([40, 97], 2), ([40, 98], 2)] = some (k, v) ∧
        ([([40, 97], 2), ([40, 98], 2)] : List (List Nat × Nat)) = l1 ++ (k, v) :: l2 ∧
        (∀ e ∈ [([40, 97], 2), ([40, 98], 2)], e.2 ≤ v) ∧ ∀ e ∈ l1, e.2 < v :=
  ⟨by decide, frequencySelector_max_earliest.1 [([40, 97], 2), ([40, 98], 2)] (by decide)⟩

/-- C9.  On a document with zero pages both strategies fail with the
`EmptyDocument` error (the `InvalidPDFError("PDF has no pages")` raise,
re-wrapped at the strategy boundary) and return no boolean outcome. -/
theorem zeroPages_both_strategies_error (patterns : List (Nat × Nat))
    (minLen window : Nat) (doc : PdfDocument) (h : doc.pages = []) :
    xrefRemove patterns doc = .error .emptyDocument ∧
      commonStringRemove minLen window doc = .error .emptyDocument := by
  constructor
  · rw [xrefRemove, h]
  · rw [commonStringRemove, if_pos (by rw [h]; rfl)]

/-- C9 witness. -/
theorem zeroPages_both_strategies_error_witness :
    (PdfDocument.mk none []).pages = [] ∧
      xrefRemove [(2360, 1640)] ⟨none, []⟩ = .error .emptyDocument ∧
      commonStringRemove 30 300 ⟨none, []⟩ = .error .emptyDocument :=
  ⟨rfl, zeroPages_both_strategies_error [(2360, 1640)] 30 300 ⟨none, []⟩ rfl⟩

theorem tjScanGoF_no_qual (minLen window : Nat) (s : List Nat)
    (hq : hasQualifyingRun minLen window s = false) :
    ∀ fuel i ctr, tjScanGoF minLen window s fuel i ctr = ctr := by
  have hpt : ∀ i, i < s.length → qualifyingRunAt minLen window s i = false := by
    rw [hasQualifyingRun] at hq
    intro i hi
    exact Bool.eq_false_iff.mpr (List.any_eq_false.mp hq i (List.mem_range.mpr hi))
  intro fuel
  induction fuel with
  | zero => intro i ctr; rfl
  | succ n ih =>
    intro i ctr
    rw [tjScanGoF]
    by_cases hlen : i < s.length
    · rw [dif_pos hlen]
      by_cases h40 : s[i] = 40
      · rw [if_pos h40]
        rcases hfind : bfind s closeParenTj i with _ | e <;> simp only [hfind]
        · exact ih _ _
        · by_cases hwin : e - i < window
          · rw [if_pos hwin]
            by_cases hmin : minLen ≤ (slice s i (e + 4)).length
            · exfalso
              have : qualifyingRunAt minLen window s i = true := by
                simp [qualifyingRunAt, qualTermB, hfind,
                  List.getElem?_eq_getElem hlen, h40, hwin, hmin]
              rw [hpt i hlen] at this
              exact Bool.false_ne_true this
            · rw [if_neg hmin]
              exact ih _ _
          · rw [if_neg hwin]
            exact ih _ _
      · rw [if_neg h40]
        by_cases h60 : s[i] = 60
        · rw [if_pos h60]
          rcases hfind : bfind s closeAngleTj i with _ | e <;> simp only [hfind]
          · exact ih _ _
          · by_cases hwin : e - i < window
            · rw [if_pos hwin]
              by_cases hmin : minLen ≤ (slice s i (e + 4)).length
              · exfalso
                have : qualifyingRunAt minLen window s i = true := by
                  simp [qualifyingRunAt, qualTermB, hfind,
                    List.getElem?_eq_getElem hlen, h60, hwin, hmin]
                rw [hpt i hlen] at this
                exact Bool.false_ne_true this
              · rw [if_neg hmin]
                exact ih _ _
            · rw [if_neg hwin]
              exact ih _ _
        · rw [if_neg h60]
          by_cases h91 : s[i] = 91
          · rw [if_pos h91]
            rcases hfind : bfind s closeBracketTJ i with _ | e <;> simp only [hfind]
            · exact ih _ _
            · by_cases hwin : e - i < window
              · rw [if_pos hwin]
                by_cases hmin : minLen ≤ (slice s i (e + 5)).length
                · exfalso
                  have : qualifyingRunAt minLen window s i = true := by
                    simp [qualifyingRunAt, qualTermB, hfind,
                      List.getElem?_eq_getElem hlen, h91, hwin, hmin]
                  rw [hpt i hlen] at this
                  exact Bool.false_ne_true this
                · rw [if_neg hmin]
                  exact ih _ _
              · rw [if_neg hwin]
                exact ih _ _
          · rw [if_neg h91]
            exact ih _ _
    · rw [dif_neg hlen]

theorem docCounter_eq_nil_of_no_qual (minLen window : Nat) (doc : PdfDocument)
    (hq : ∀ pg ∈ doc.pages, ∀ s ∈ pg.streams, hasQualifyingRun minLen window s = false) :
    docCounter minLen window doc = [] := by
  rw [docCounter]
  have hgen : ∀ pgs : List PageData, (∀ pg ∈ pgs, ∀ s ∈ pg.streams,
      hasQualifyingRun minLen window s = false) →
      ∀ ctr, pgs.foldl
        (fun ctr pg => pg.streams.foldl (fun c s => tjScanGo minLen window s 0 c) ctr)
        ctr = ctr := by
    intro pgs
    induction pgs with
    | nil => intro _ ctr; rfl
    | cons pg rest ih =>
      intro hall ctr
      rw [List.foldl_cons]
      have hstr : ∀ ss : List (List Nat),
          (∀ s ∈ ss, hasQualifyingRun minLen window s = false) →
          ∀ ctr', ss.foldl (fun c s => tjScanGo minLen window s 0 c) ctr' = ctr' := by
        intro ss
        induction ss with
        | nil => intro _ ctr'; rfl
        | cons s rest' ih' =>
          intro hs ctr'
          rw [List.foldl_cons, tjScanGo,
            tjScanGoF_no_qual minLen window s (hs s (List.mem_cons_self _ _)) _ _ _]
          exact ih' (fun s' hs' => hs s' (List.mem_cons_of_mem _ hs')) ctr'
      rw [hstr pg.streams (hall pg (List.mem_cons_self _ _)) ctr]
      exact ih (fun pg' hpg' => hall pg' (List.mem_cons_of_mem _ hpg')) ctr
  exact hgen doc.pages hq []

theorem commonRemove_false_of_no_qual (minLen window : Nat) (doc : PdfDocument)
    (hne : doc.pages ≠ [])
    (hq : ∀ pg ∈ doc.pages, ∀ s ∈ pg.streams, hasQualifyingRun minLen window s = false) :
    commonStringRemove minLen window doc = .ok (false, doc) := by
  rw [commonStringRemove, if_neg (by simp [hne]), docCounter_eq_nil_of_no_qual minLen window doc hq]
  rfl

/-- C8.  A buffer with zero qualifying bracket runs (the empty buffer
included) yields an empty frequency table; on a (non-empty) document all of
whose streams are such buffers the Text-Pattern strategy reports the value
`outcome = false` — no `WatermarkNotFoundError` propagates, the detection
phase's "nothing found" is a value. -/
theorem noQualRuns_empty_table_false_outcome (minLen window : Nat)
    (doc : PdfDocument) (hne : doc.pages ≠ [])
    (hq : ∀ pg ∈ doc.pages, ∀ s ∈ pg.streams, hasQualifyingRun minLen window s = false) :
    (∀ pg ∈ doc.pages, ∀ s ∈ pg.streams, tjScan minLen window s = []) ∧
      docCounter minLen window doc = [] ∧
      commonStringRemove minLen window doc = .ok (false, doc) := by
  refine ⟨?_, docCounter_eq_nil_of_no_qual minLen window doc hq,
    commonRemove_false_of_no_qual minLen window doc hne hq⟩
  intro pg hpg s hs
  rw [tjScan, tjScanGo, tjScanGoF_no_qual minLen window s (hq pg hpg s hs)]

/-- C8 witness: a concrete one-page document whose single stream has no
qualifying run. -/
theorem noQualRuns_empty_table_false_outcome_witness :
    (PdfDocument.mk none [⟨[[104, 105]], []⟩]).pages ≠ [] ∧
      (∀ pg ∈ (PdfDocument.mk none [⟨[[104, 105]], []⟩]).pages, ∀ s ∈ pg.streams,
        hasQualifyingRun 30 300 s = false) ∧
      commonStringRemove 30 300 ⟨none, [⟨[[104, 105]], []⟩]⟩ =
        .ok (false, ⟨none, [⟨[[104, 105]], []⟩]⟩) :=
  ⟨by decide, by decide,
    (noQualRuns_empty_table_false_outcome 30 300 ⟨none, [⟨[[104, 105]], []⟩]⟩
      (by decide) (by decide)).2.2⟩

/-- C3 (amended).  A pattern with no remaining occurrence in any content
stream of a document is never recorded by a (second) scan of that document:
once every occurrence of the winning pattern has been deleted with its
enclosing blocks, the pattern itself cannot be detected again — although
the second run's overall outcome can still be `true`, since other
qualifying runs may remain (see the counterexample). -/
theorem pattern_absent_not_redetected (minLen window : Nat) (doc : PdfDocument)
    (P : List Nat)
    (h : ∀ pg ∈ doc.pages, ∀ s ∈ pg.streams, containsSub s P = false) :
    P ∉ ctrKeys (docCounter minLen window doc) := by
  intro hmem
  obtain ⟨pg, hpg, s, hs, hrec⟩ := docCounter_keys _ _ _ _ hmem
  have hinf := (containsSub_iff_infix_lem s P).mpr (recordedRun_infix_lem hrec)
  rw [h pg hpg s hs] at hinf
  exact Bool.false_ne_true hinf

/-- C3 witness. -/
theorem pattern_absent_not_redetected_witness :
    (∀ pg ∈ (PdfDocument.mk none [⟨[[32]], []⟩]).pages, ∀ s ∈ pg.streams,
      containsSub s [40, 119, 109, 41, 32, 84, 106] = false) ∧
      [40, 119, 109, 41, 32, 84, 106] ∉
        ctrKeys (docCounter 8 300 ⟨none, [⟨[[32]], []⟩]⟩) :=
  ⟨by decide,
    pattern_absent_not_redetected 8 300 ⟨none, [⟨[[32]], []⟩]⟩
      [40, 119, 109, 41, 32, 84, 106] (by decide)⟩

/-- The C3 counterexample document: one page, one stream
`q (aaaaaa) Tj Q q (bbbbbb) Tj Q`, two distinct runs in separate blocks. -/
def cexDocC3 : PdfDocument :=
  ⟨none, [⟨[[113, 32, 40, 97, 97, 97, 97, 97, 97, 41, 32, 84, 106, 32, 81, 32,
             113, 32, 40, 98, 98, 98, 98, 98, 98, 41, 32, 84, 106, 32, 81]], []⟩]⟩

/-- The output of the Text-Pattern strategy on `cexDocC3`: the first block
(the winner's) deleted, the second one intact. -/
def cexDocC3Out : PdfDocument :=
  ⟨none, [⟨[[32, 113, 32, 40, 98, 98, 98, 98, 98, 98, 41, 32, 84, 106, 32, 81]], []⟩]⟩

/-- C3 counterexample: running the Text-Pattern strategy on its own output
yields `outcome = true` again (the second run picks the other run as its
"watermark"), refuting `outcome = false` as stated. -/
theorem second_run_outcome_true_counterexample :
    commonStringRemove 8 300 cexDocC3 = .ok (true, cexDocC3Out) ∧
      commonStringRemove 8 300 cexDocC3Out =
        .ok (true, ⟨none, [⟨[[32]], []⟩]⟩) := by decide

/-- C5 (amended).  Every run the scanner records decodes to itself under
latin1 (decoding is total, so the hex fallback is dead code and hex is
never used for matching), begins with its opening marker — never with
whitespace — so Python's `strip()` can only trim trailing whitespace from
it; and a run ending in the operator byte `j`/`J` is matched by exactly its
raw bytes.  Matching operates on the strip()-ed latin1 decoding, which
differs from the raw run bytes only in trailing whitespace (possible only
for `[`-runs, which capture one extra byte past their terminator). -/
theorem matching_on_stripped_decoded_run (minLen window : Nat) (doc : PdfDocument)
    (k : List Nat) (hk : k ∈ ctrKeys (docCounter minLen window doc)) :
    latin1Decode k = k ∧
      (k.head? = some 40 ∨ k.head? = some 60 ∨ k.head? = some 91) ∧
      pyStrip k = (k.reverse.dropWhile isWsB).reverse ∧
      (∀ b, k.getLast? = some b → b = 106 ∨ b = 74 → pyStrip k = k) := by
  obtain ⟨pg, hpg, s, hs, hrec⟩ := docCounter_keys _ _ _ _ hk
  have hhead := recordedRun_head hrec
  have hdrop : k.dropWhile isWsB = k := by
    cases hk : k with
    | nil => rfl
    | cons a t =>
      rw [hk] at hhead
      simp only [List.head?_cons, Option.some.injEq] at hhead
      have ha : isWsB a = false := by
        rcases hhead with rfl | rfl | rfl <;> decide
      rw [List.dropWhile_cons, ha]
      simp
  refine ⟨rfl, hhead, ?_, ?_⟩
  · rw [pyStrip, hdrop]
  · intro b hlast hb
    have hrev : k.reverse.dropWhile isWsB = k.reverse := by
      cases hrevk : k.reverse with
      | nil => rfl
      | cons a t =>
        have : k.getLast? = some a := by
          rw [← List.head?_reverse, hrevk, List.head?_cons]
        rw [this] at hlast
        injection hlast with hab
        have ha : isWsB a = false := by
          rcases hb with rfl | rfl <;> rw [hab] <;> decide
        rw [List.dropWhile_cons, ha]
        simp
    rw [pyStrip, hdrop, hrev, List.reverse_reverse]

/-- C5 witness: the single recorded run of a concrete stream starts with
`(` and ends in `j`, so it is matched by exactly its raw bytes. -/
theorem matching_on_stripped_decoded_run_witness :
    [40, 97, 97, 97, 97, 97, 97, 97, 97, 41, 32, 84, 106] ∈
        ctrKeys (docCounter 8 300
          ⟨none, [⟨[[40, 97, 97, 97, 97, 97, 97, 97, 97, 41, 32, 84, 106]], []⟩]⟩) ∧
      pyStrip [40, 97, 97, 97, 97, 97, 97, 97, 97, 41, 32, 84, 106] =
        [40, 97, 97, 97, 97, 97, 97, 97, 97, 41, 32, 84, 106] :=
  ⟨by decide,
    (matching_on_stripped_decoded_run 8 300
      ⟨none, [⟨[[40, 97, 97, 97, 97, 97, 97, 97, 97, 41, 32, 84, 106]], []⟩]⟩
      [40, 97, 97, 97, 97, 97, 97, 97, 97, 41, 32, 84, 106] (by decide)).2.2.2
      106 (by decide) (Or.inl rfl)⟩

/-- The C5 counterexample document: one page, one stream
`[aaaa] TJ q [aaaa] TJ\nQ`.  The winning `[`-run captures the byte after
its terminator — here a space — and `strip()` removes it before matching. -/
def cexDocC5 : PdfDocument :=
  ⟨none, [⟨[[91, 97, 97, 97, 97, 93, 32, 84, 74, 32,
             113, 32, 91, 97, 97, 97, 97, 93, 32, 84, 74, 10, 81]], []⟩]⟩

/-- C5 counterexample: the winning raw run is `[aaaa] TJ␣` (trailing
space); the removal deletes the block `q [aaaa] TJ\nQ`, which does NOT
contain those raw bytes — matching used the strip()-ed text instead, so
matching does not operate on the raw bytes of the run as stated. -/
theorem matching_not_raw_bytes_counterexample :
    mostCommon1 (docCounter 8 300 cexDocC5) =
        some ([91, 97, 97, 97, 97, 93, 32, 84, 74, 32], 1) ∧
      findBlocks [91, 97, 97, 97, 97, 93, 32, 84, 74, 32,
          113, 32, 91, 97, 97, 97, 97, 93, 32, 84, 74, 10, 81] =
        [[113, 32, 91, 97, 97, 97, 97, 93, 32, 84, 74, 10, 81]] ∧
      containsSub [113, 32, 91, 97, 97, 97, 97, 93, 32, 84, 74, 10, 81]
        [91, 97, 97, 97, 97, 93, 32, 84, 74, 32] = false ∧
      commonStringRemove 8 300 cexDocC5 =
        .ok (true, ⟨none, [⟨[[91, 97, 97, 97, 97, 93, 32, 84, 74, 32]], []⟩]⟩) := by
  refine ⟨by decide, by decide, by decide, by decide⟩

/-- C1 (amended).  For a non-empty document, a strategy's `remove` returns
`true` if and only if its detection phase succeeded — for the Text-Pattern
strategy, the frequency table is non-empty (regardless of how many blocks
the removal phase then deletes, possibly zero); for the Image-Signature
strategy, a matching image with a non-zero xref id was found (which is then
deleted). -/
theorem remove_true_iff_detection (minLen window : Nat) (pats : List (Nat × Nat))
    (doc : PdfDocument) (p0 : PageData) (rest : List PageData)
    (hp : doc.pages = p0 :: rest) :
    ((∃ d, commonStringRemove minLen window doc = .ok (true, d)) ↔
      mostCommon1 (docCounter minLen window doc) ≠ none) ∧
    ((∃ d, xrefRemove pats doc = .ok (true, d)) ↔
      ∃ x, findWatermarkXref pats p0 = some x ∧ x ≠ 0) := by
  constructor
  · rw [commonStringRemove, if_neg (by simp [hp])]
    cases hmc : mostCommon1 (docCounter minLen window doc) with
    | none =>
      simp only [hmc]
      constructor
      · rintro ⟨d, hd⟩
        exact absurd hd (by simp)
      · intro h
        exact absurd rfl h
    | some e =>
      obtain ⟨p, f⟩ := e
      have hmem := mostCommon1_mem _ _ hmc
      have hcount := docCounter_counts minLen window doc _ hmem
      have hkey : p ∈ ctrKeys (docCounter minLen window doc) :=
        List.mem_map.mpr ⟨(p, f), hmem, rfl⟩
      obtain ⟨pg, hpg, s, hs, hrec⟩ := docCounter_keys _ _ _ _ hkey
      have hne : ¬(p.isEmpty ∨ f < 1) := by
        push_neg
        exact ⟨by simpa using recordedRun_ne_nil hrec, by omega⟩
      simp only [hmc, if_neg hne]
      constructor
      · intro _
        simp
      · intro _
        exact ⟨_, rfl⟩
  · simp only [xrefRemove, hp]
    cases hfx : findWatermarkXref pats p0 with
    | none =>
      simp only [hfx]
      constructor
      · rintro ⟨d, hd⟩
        exact absurd hd (by simp)
      · rintro ⟨x, hx, _⟩
        exact absurd hx (by simp)
    | some x =>
      simp only [hfx]
      by_cases hx0 : x = 0
      · rw [if_pos hx0]
        constructor
        · rintro ⟨d, hd⟩
          exact absurd hd (by simp)
        · rintro ⟨x', hx', hne⟩
          injection hx' with hx'
          exact absurd (hx' ▸ hx0) hne
      · rw [if_neg hx0]
        constructor
        · intro _
          exact ⟨x, rfl, hx0⟩
        · intro _
          exact ⟨_, rfl⟩

/-- C1 witness at a concrete empty-content document (no detection, outcome
not `true` for either strategy). -/
theorem remove_true_iff_detection_witness :
    (PdfDocument.mk none [⟨[], []⟩]).pages = [PageData.mk [] []] ∧
      ((∃ d, commonStringRemove 30 300 ⟨none, [⟨[], []⟩]⟩ = .ok (true, d)) ↔
        mostCommon1 (docCounter 30 300 ⟨none, [⟨[], []⟩]⟩) ≠ none) ∧
      ((∃ d, xrefRemove [(2360, 1640)] ⟨none, [⟨[], []⟩]⟩ = .ok (true, d)) ↔
        ∃ x, findWatermarkXref [(2360, 1640)] ⟨[], []⟩ = some x ∧ x ≠ 0) :=
  ⟨rfl, remove_true_iff_detection 30 300 [(2360, 1640)] ⟨none, [⟨[], []⟩]⟩
    ⟨[], []⟩ [] rfl⟩

/-- The C1 counterexample document: its only stream holds a qualifying run
`(aaaaaaaa) Tj` that sits inside no `q...Q` block at all. -/
def cexDocC1 : PdfDocument :=
  ⟨none, [⟨[[40, 97, 97, 97, 97, 97, 97, 97, 97, 41, 32, 84, 106]], []⟩]⟩

/-- C1 counterexample: the Text-Pattern strategy detects a winning pattern
but strips zero content blocks (its output equals its input byte for byte),
and still returns `true` — refuting "the outcome is not true when zero
blocks are stripped". -/
theorem remove_true_zero_blocks_counterexample :
    commonStringRemove 8 300 cexDocC1 = .ok (true, cexDocC1) ∧
      (removeFromStream
        (pyStrip (latin1Decode [40, 97, 97, 97, 97, 97, 97, 97, 97, 41, 32, 84, 106]))
        [40, 97, 97, 97, 97, 97, 97, 97, 97, 41, 32, 84, 106]).2 = 0 := by
  refine ⟨by decide, by decide⟩

/-- C7 (amended).  The host routes with the hard-coded literal `'Version'`:
the Image-Signature strategy is selected iff `'Version'` is a substring of
the producer metadata (an absent producer counts as the empty string);
with the default configuration (`XREF_PRODUCER_PATTERNS = ["Version"]`)
this coincides with `can_handle`, but a reconfigured trigger list is
ignored by the routing (see the counterexample).  The Text-Pattern
strategy remains the fallback: it accepts every document and, when nothing
is detectable, returns the value `false` rather than erroring. -/
theorem strategy_routing_version_literal :
    (∀ doc : PdfDocument,
      selectStrategy doc = .xrefImage ↔
        containsSub (producerString doc) versionBytes = true)
    ∧ (∀ doc : PdfDocument,
      xrefCanHandle defaultXrefProducerPatterns doc =
        containsSub (producerString doc) versionBytes)
    ∧ (∀ doc : PdfDocument, commonCanHandle doc = true)
    ∧ (∀ minLen window : Nat, ∀ doc : PdfDocument, doc.pages ≠ [] →
        (∀ pg ∈ doc.pages, ∀ s ∈ pg.streams,
          hasQualifyingRun minLen window s = false) →
        commonStringRemove minLen window doc = .ok (false, doc)) := by
  refine ⟨?_, ?_, fun _ => rfl, commonRemove_false_of_no_qual⟩
  · intro doc
    rw [selectStrategy]
    by_cases h : containsSub (producerString doc) versionBytes
    · rw [if_pos h]
      simp [h]
    · rw [if_neg h]
      simp only [Bool.not_eq_true] at h
      simp [h]
  · intro doc
    simp [xrefCanHandle, defaultXrefProducerPatterns]

/-- C7 witness: a producer containing `Version` routes to the
Image-Signature strategy; an undetectable document gets outcome `false`
from the fallback. -/
theorem strategy_routing_version_literal_witness :
    (selectStrategy ⟨some [80, 86, 101, 114, 115, 105, 111, 110], []⟩ = .xrefImage ↔
      containsSub (producerString ⟨some [80, 86, 101, 114, 115, 105, 111, 110], []⟩)
        versionBytes = true) ∧
      commonStringRemove 30 300 ⟨none, [⟨[], []⟩]⟩ = .ok (false, ⟨none, [⟨[], []⟩]⟩) :=
  ⟨strategy_routing_version_literal.1 _,
    strategy_routing_version_literal.2.2.2 30 300 ⟨none, [⟨[], []⟩]⟩
      (by decide) (by decide)⟩

/-- The C7 counterexample document: producer `Foo`, matching a
(non-default) configured trigger list `["Foo"]`. -/
def cexDocC7 : PdfDocument := ⟨some [70, 111, 111], [⟨[], []⟩]⟩

/-- C7 counterexample: with triggers configured as `["Foo"]` and producer
`Foo`, `can_handle` is `true` — a configured trigger IS a substring of the
producer — yet the host routes the document to the Text-Pattern strategy,
because the routing tests the literal `'Version'` instead. -/
theorem routing_ignores_configured_triggers_counterexample :
    xrefCanHandle [[70, 111, 111]] cexDocC7 = true ∧
      selectStrategy cexDocC7 = .commonString := by decide

theorem occursAt_lt {pat s : List Nat} {e : Nat} (hocc : occursAt pat s e = true)
    (hpat : pat ≠ []) : e < s.length := by
  by_contra hge
  rw [occursAt_false_of_ge hpat (by omega)] at hocc
  exact Bool.false_ne_true hocc

theorem specFindWithinGoF_none_of (s pat : List Nat) (st w : Nat)
    (h : ∀ i, st ≤ i → i - st < w → occursAt pat s i = false) :
    ∀ fuel j, st ≤ j → specFindWithinGoF s pat st w fuel j = none := by
  intro fuel
  induction fuel with
  | zero => intro j _; rfl
  | succ n ih =>
    intro j hj
    rw [specFindWithinGoF]
    by_cases hc : j < s.length ∧ j - st < w
    · rw [if_pos hc, if_neg (Bool.eq_false_iff.mp (h j hj hc.2))]
      exact ih (j + 1) (by omega)
    · rw [if_neg hc]

theorem specFindWithinGoF_complete (s pat : List Nat) (st w e : Nat)
    (hocc : occursAt pat s e = true) (hpat : pat ≠ []) (hw : e - st < w)
    (hfirst : ∀ i, st ≤ i → i < e → occursAt pat s i = false) :
    ∀ fuel j, st ≤ j → j ≤ e → s.length ≤ j + fuel →
      specFindWithinGoF s pat st w fuel j = some e := by
  have helt : e < s.length := occursAt_lt hocc hpat
  intro fuel
  induction fuel with
  | zero => intro j _ hje hlen; omega
  | succ n ih =>
    intro j hstj hje hlen
    rw [specFindWithinGoF, if_pos (by constructor <;> omega)]
    rcases Nat.eq_or_lt_of_le hje with rfl | hlt
    · rw [if_pos hocc]
    · rw [if_neg (Bool.eq_false_iff.mp (hfirst j hstj hlt))]
      exact ih (j + 1) (by omega) (by omega) (by omega)

/-- The spec's window-bounded terminator search agrees with the code's
global `find` followed by the `end - i < window` test. -/
theorem specFindWithin_eq_bfind_window (s pat : List Nat) (st w : Nat)
    (hpat : pat ≠ []) :
    specFindWithin s pat st w =
      match bfind s pat st with
      | some e => if e - st < w then some e else none
      | none => none := by
  cases hb : bfind s pat st with
  | none =>
    rw [specFindWithin]
    exact specFindWithinGoF_none_of s pat st w
      (fun i hi _ => bfind_none s pat st hpat hb i hi) _ st le_rfl
  | some e =>
    by_cases hw : e - st < w
    · simp only [if_pos hw]
      rw [specFindWithin]
      exact specFindWithinGoF_complete s pat st w e (bfind_occurs s pat st e hb) hpat hw
        (bfind_not_before s pat st e hb) _ st le_rfl (bfind_ge s pat st e hb) (by omega)
    · simp only [if_neg hw]
      rw [specFindWithin]
      refine specFindWithinGoF_none_of s pat st w ?_ _ st le_rfl
      intro i hi hiw
      have hse := bfind_ge s pat st e hb
      exact bfind_not_before s pat st e hb i hi (by omega)

theorem specScanAmendedF_eq_tjScanGoF (minLen window : Nat) (content : List Nat) :
    ∀ fuel i ctr, specScanAmendedF minLen window content fuel i ctr =
      tjScanGoF minLen window content fuel i ctr := by
  intro fuel
  induction fuel with
  | zero => intro i ctr; rfl
  | succ n ih =>
    intro i ctr
    rw [specScanAmendedF, tjScanGoF]
    by_cases hlen : i < content.length
    · rw [dif_pos hlen, dif_pos hlen]
      by_cases h40 : content[i] = 40
      · rw [if_pos h40, if_pos h40,
          specFindWithin_eq_bfind_window content closeParenTj i window (by decide)]
        rcases hfind : bfind content closeParenTj i with _ | e <;> simp only [hfind]
        · exact ih _ _
        · by_cases hwin : e - i < window
          · rw [if_pos hwin, if_pos hwin]
            exact ih _ _
          · rw [if_neg hwin, if_neg hwin]
            exact ih _ _
      · rw [if_neg h40, if_neg h40]
        by_cases h60 : content[i] = 60
        · rw [if_pos h60, if_pos h60,
            specFindWithin_eq_bfind_window content closeAngleTj i window (by decide)]
          rcases hfind : bfind content closeAngleTj i with _ | e <;> simp only [hfind]
          · exact ih _ _
          · by_cases hwin : e - i < window
            · rw [if_pos hwin, if_pos hwin]
              exact ih _ _
            · rw [if_neg hwin, if_neg hwin]
              exact ih _ _
        · rw [if_neg h60, if_neg h60]
          by_cases h91 : content[i] = 91
          · rw [if_pos h91, if_pos h91,
              specFindWithin_eq_bfind_window content closeBracketTJ i window (by decide)]
            rcases hfind : bfind content closeBracketTJ i with _ | e <;> simp only [hfind]
            · exact ih _ _
            · by_cases hwin : e - i < window
              · rw [if_pos hwin, if_pos hwin]
                exact ih _ _
              · rw [if_neg hwin, if_neg hwin]
                exact ih _ _
          · rw [if_neg h91, if_neg h91]
            exact ih _ _
    · rw [dif_neg hlen, dif_neg hlen]

/-- C2 (amended).  The code's bracket-mode scan, on every buffer, window
and minimum length, behaves exactly as the amended wording says: on an
opening marker whose terminator is first found within the window the
cursor always jumps past the terminator — also when the run is shorter
than the minimum length and is therefore merely not recorded — and the
`[` form captures (and skips) one byte beyond its `] TJ` terminator;
when no terminator lies within the window the cursor advances by one
byte.  Formally: the scanner written from that wording (using a search
bounded to the window) computes the same frequency table as the embedded
code loop, from any cursor and table. -/
theorem bracketScan_matches_amended_spec (minLen window : Nat) (content : List Nat) :
    specScanAmended minLen window content = tjScan minLen window content ∧
      ∀ fuel i ctr, specScanAmendedF minLen window content fuel i ctr =
        tjScanGoF minLen window content fuel i ctr :=
  ⟨specScanAmendedF_eq_tjScanGoF minLen window content _ 0 [],
    specScanAmendedF_eq_tjScanGoF minLen window content⟩

/-- C2 counterexample: the scanner written exactly as the claim states it
(runs always end at the terminator, and a too-short run advances the
cursor by one byte) disagrees with the code.  On `[aaaaaaaa] TJZ` (with
`L = 8`) the code records the trailing `Z` into the run; on
`(<a) Tjbbbbbb> Tj` the code's jump past the short `(`-run skips the
`<`-run entirely and records nothing, while the claim's scanner records
it. -/
theorem bracketScan_claim_counterexample :
    specScanClaim 8 300 [91, 97, 97, 97, 97, 97, 97, 97, 97, 93, 32, 84, 74, 90] ≠
        tjScan 8 300 [91, 97, 97, 97, 97, 97, 97, 97, 97, 93, 32, 84, 74, 90] ∧
      specScanClaim 8 300
          [40, 60, 97, 41, 32, 84, 106, 98, 98, 98, 98, 98, 98, 62, 32, 84, 106] ≠
        tjScan 8 300
          [40, 60, 97, 41, 32, 84, 106, 98, 98, 98, 98, 98, 98, 62, 32, 84, 106] := by
  refine ⟨by decide, by decide⟩

/-! ## Block removal: `str.replace` lemmas -/

theorem replaceAllF_fuel_irrel (t : List Nat) :
    ∀ fuel fuel' (s : List Nat), s.length ≤ fuel → s.length ≤ fuel' →
      replaceAllF t fuel s = replaceAllF t fuel' s := by
  intro fuel
  induction fuel with
  | zero =>
    intro fuel' s hs hs'
    have hnil : s = [] := List.eq_nil_of_length_eq_zero (by omega)
    subst hnil
    cases fuel' <;> rfl
  | succ n ih =>
    intro fuel' s hs hs'
    cases s with
    | nil => cases fuel' <;> rfl
    | cons a rest =>
      cases fuel' with
      | zero => simp at hs'
      | succ n' =>
        simp only [List.length_cons] at hs hs'
        rw [replaceAllF, replaceAllF]
        by_cases hc : t ≠ [] ∧ t.isPrefixOf (a :: rest)
        · rw [if_pos hc, if_pos hc]
          have ht1 : 1 ≤ t.length := by
            cases ht : t with
            | nil => exact absurd ht hc.1
            | cons x xs => simp
          refine ih _ _ ?_ ?_ <;> simp only [List.length_drop, List.length_cons] <;> omega
        · rw [if_neg hc, if_neg hc]
          rw [ih n' rest (by omega) (by omega)]

theorem replaceAll_drop_of_prefix_lem (s t : List Nat) (ht : t ≠ [])
    (hp : t.isPrefixOf s = true) (hs : s ≠ []) :
    replaceAll s t = replaceAll (s.drop t.length) t := by
  cases s with
  | nil => exact absurd rfl hs
  | cons a rest =>
    have ht1 : 1 ≤ t.length := by
      cases htt : t with
      | nil => exact absurd htt ht
      | cons x xs => simp
    simp only [replaceAll, List.length_cons]
    rw [replaceAllF, if_pos ⟨ht, hp⟩]
    refine replaceAllF_fuel_irrel t _ _ _ ?_ ?_ <;>
      simp only [List.length_drop, List.length_cons] <;> omega

theorem replaceAll_cons_not_prefix_lem (a : Nat) (rest t : List Nat)
    (hp : ¬t.isPrefixOf (a :: rest) = true) :
    replaceAll (a :: rest) t = a :: replaceAll rest t := by
  simp only [replaceAll, List.length_cons]
  rw [replaceAllF, if_neg (fun hc => hp hc.2)]

theorem isPrefixOf_iff_occursAt_zero_lem (t s : List Nat) :
    t.isPrefixOf s = true ↔ occursAt t s 0 = true := by
  rw [List.isPrefixOf_iff_prefix, occursAt_iff, List.drop_zero, List.prefix_iff_eq_take]
  constructor <;> intro h <;> exact h.symm

theorem occursAt_cons_succ (t : List Nat) (a : Nat) (rest : List Nat) (j : Nat) :
    occursAt t (a :: rest) (j + 1) = occursAt t rest j := by
  rw [occursAt, occursAt, List.drop_succ_cons]

theorem occursAt_append_shift (t X Y : List Nat) (j : Nat) :
    occursAt t (X ++ Y) (X.length + j) = occursAt t Y j := by
  have h1 : (X ++ Y).drop (X.length + j) = Y.drop j := by
    rw [List.drop_append_eq_append_drop, List.drop_eq_nil_of_le (by omega)]
    simp
  rw [occursAt, occursAt, h1]

theorem replaceAll_no_occ (t : List Nat) :
    ∀ s : List Nat, (∀ j, occursAt t s j = false) → replaceAll s t = s := by
  intro s
  induction s with
  | nil => intro _; rfl
  | cons a rest ih =>
    intro h
    have hp : ¬t.isPrefixOf (a :: rest) = true := by
      intro hp
      have h0 := (isPrefixOf_iff_occursAt_zero_lem t _).mp hp
      rw [h 0] at h0
      exact Bool.false_ne_true h0
    rw [replaceAll_cons_not_prefix_lem a rest t hp,
      ih (fun j => by rw [← occursAt_cons_succ t a rest j]; exact h (j + 1))]

/-- `str.replace(old, "")` on a string with exactly one occurrence of
`old` deletes exactly that occurrence. -/
theorem replaceAll_single (t : List Nat) (ht : t ≠ []) :
    ∀ U V : List Nat, (∀ j, occursAt t (U ++ t ++ V) j = true → j = U.length) →
      replaceAll (U ++ t ++ V) t = U ++ V := by
  have ht1 : 1 ≤ t.length := by
    cases htt : t with
    | nil => exact absurd htt ht
    | cons x xs => simp
  intro U
  induction U with
  | nil =>
    intro V huniq
    simp only [List.nil_append]
    have hp : t.isPrefixOf (t ++ V) = true := by
      rw [List.isPrefixOf_iff_prefix]
      exact ⟨V, rfl⟩
    have hne : t ++ V ≠ [] := by
      cases htt : t with
      | nil => exact absurd htt ht
      | cons x xs => simp
    rw [replaceAll_drop_of_prefix_lem _ t ht hp hne]
    have hdrop : (t ++ V).drop t.length = V := by
      rw [List.drop_append_eq_append_drop, List.drop_eq_nil_of_le le_rfl]
      simp
    rw [hdrop]
    apply replaceAll_no_occ
    intro j
    rw [Bool.eq_false_iff]
    intro hocc
    have hsh : occursAt t (t ++ V) (t.length + j) = true := by
      rw [occursAt_append_shift t t V j]
      exact hocc
    have hj := huniq (t.length + j) (by simpa using hsh)
    simp only [List.length_nil] at hj
    omega
  | cons a U' ih =>
    intro V huniq
    have hS : (a :: U') ++ t ++ V = a :: (U' ++ t ++ V) := by simp
    have hna : ¬t.isPrefixOf (a :: (U' ++ t ++ V)) = true := by
      intro hp
      have h0 := (isPrefixOf_iff_occursAt_zero_lem t _).mp hp
      have := huniq 0 (by rw [hS]; exact h0)
      simp at this
    rw [hS, replaceAll_cons_not_prefix_lem a _ t hna, ih V ?_]
    · simp
    · intro j hocc
      have hsh : occursAt t ((a :: U') ++ t ++ V) (j + 1) = true := by
        rw [hS, occursAt_cons_succ]
        exact hocc
      have hj := huniq (j + 1) hsh
      simp at hj
      omega

/-! ## Block removal: where the regex matches on the C4 stream shape -/

theorem isWsB_ne_qQ {d : Nat} (h : isWsB d = true) : d ≠ 113 ∧ d ≠ 81 := by
  have hd : d ∈ pyWs := by simpa [isWsB] using h
  fin_cases hd <;> decide

theorem occursAt_getElem? (pat s : List Nat) (j r : Nat)
    (hocc : occursAt pat s j = true) (hr : r < pat.length) : s[j + r]? = pat[r]? := by
  rw [occursAt_iff] at hocc
  rw [← hocc, List.getElem?_take, if_pos hr, List.getElem?_drop]

theorem findBlocksGoF_fuel_irrel (s : List Nat) :
    ∀ fuel fuel' p, s.length ≤ p + fuel → s.length ≤ p + fuel' →
      findBlocksGoF s fuel p = findBlocksGoF s fuel' p := by
  intro fuel
  induction fuel with
  | zero =>
    intro fuel' p h h'
    cases fuel' with
    | zero => rfl
    | succ n' =>
      rw [findBlocksGoF, findBlocksGoF, if_neg (by omega)]
  | succ n ih =>
    intro fuel' p h h'
    cases fuel' with
    | zero =>
      rw [findBlocksGoF, findBlocksGoF, if_neg (by omega)]
    | succ n' =>
      rw [findBlocksGoF, findBlocksGoF]
      by_cases hp : p < s.length
      · rw [if_pos hp, if_pos hp]
        cases hm : qMatchEnd s p with
        | some j =>
          simp only [hm]
          have hj := qMatchEnd_ge s p j hm
          rw [ih n' (j + 1) (by omega) (by omega)]
        | none =>
          simp only [hm]
          exact ih n' (p + 1) (by omega) (by omega)
      · rw [if_neg hp, if_neg hp]

theorem findBlocksGo_nil_of_ge (s : List Nat) (p : Nat) (h : s.length ≤ p) :
    findBlocksGo s p = [] := by
  rw [findBlocksGo, findBlocksGoF, if_neg (by omega)]

theorem qMatchEnd_none_of_not_q (s : List Nat) (p : Nat) (h : s[p]? ≠ some 113) :
    qMatchEnd s p = none := by
  rw [qMatchEnd]
  rcases hc : s[p]? with _ | c
  · rcases hd : s[p + 1]? with _ | d <;> rfl
  · rcases hd : s[p + 1]? with _ | d
    · rfl
    · have hgoal : (if c = 113 ∧ isWsB d = true then findFrom s 81 (p + 2) else none)
          = none := by
        rw [if_neg]
        intro hcd
        exact h (by rw [hc, hcd.1])
      exact hgoal

theorem findBlocksGo_skip_one (s : List Nat) (p : Nat) (h : s[p]? ≠ some 113) :
    findBlocksGo s p = findBlocksGo s (p + 1) := by
  by_cases hp : p < s.length
  · rw [findBlocksGo, findBlocksGoF, if_pos hp]
    simp only [qMatchEnd_none_of_not_q s p h]
    rw [findBlocksGo]
    exact findBlocksGoF_fuel_irrel s _ _ (p + 1) (by omega) (by omega)
  · rw [findBlocksGo_nil_of_ge s p (by omega), findBlocksGo_nil_of_ge s (p + 1) (by omega)]

theorem findBlocksGo_skip (s : List Nat) :
    ∀ k p, (∀ q, p ≤ q → q < p + k → s[q]? ≠ some 113) →
      findBlocksGo s p = findBlocksGo s (p + k) := by
  intro k
  induction k with
  | zero => intro p _; rfl
  | succ n ih =>
    intro p h
    rw [findBlocksGo_skip_one s p (h p le_rfl (by omega)),
      ih (p + 1) (fun q h1 h2 => h q (by omega) (by omega))]
    congr 1
    omega

theorem block_getElem_eq (d : Nat) (m : List Nat) (r b : Nat)
    (h : ((113 : Nat) :: d :: (m ++ [81]))[r]? = some b) :
    (r = 0 ∧ b = 113) ∨ (r = 1 ∧ b = d) ∨ (2 ≤ r ∧ r < m.length + 2 ∧ b ∈ m) ∨
      (r = m.length + 2 ∧ b = 81) := by
  match r with
  | 0 =>
    rw [List.getElem?_cons_zero] at h
    injection h with h
    exact Or.inl ⟨rfl, h.symm⟩
  | 1 =>
    rw [List.getElem?_cons_succ, List.getElem?_cons_zero] at h
    injection h with h
    exact Or.inr (Or.inl ⟨rfl, h.symm⟩)
  | r + 2 =>
    rw [List.getElem?_cons_succ, List.getElem?_cons_succ, List.getElem?_append] at h
    by_cases hr : r < m.length
    · rw [if_pos hr] at h
      exact Or.inr (Or.inr (Or.inl ⟨by omega, by omega, List.getElem?_mem h⟩))
    · rw [if_neg hr] at h
      rcases hr0 : r - m.length with _ | r'
      · rw [hr0, List.getElem?_cons_zero] at h
        injection h with h
        exact Or.inr (Or.inr (Or.inr ⟨by omega, h.symm⟩))
      · rw [hr0, List.getElem?_cons_succ] at h
        simp at h

theorem qMatchEnd_at_block (X m Y : List Nat) (d : Nat)
    (hd : isWsB d = true) (hm : 81 ∉ m) :
    qMatchEnd (X ++ (113 :: d :: (m ++ 81 :: Y))) X.length =
      some (X.length + (m.length + 2)) := by
  have hgetX : ∀ r, (X ++ (113 :: d :: (m ++ 81 :: Y)))[X.length + r]? =
      ((113 : Nat) :: d :: (m ++ 81 :: Y))[r]? := by
    intro r
    rw [List.getElem?_append_right (by omega),
      show X.length + r - X.length = r from by omega]
  have h0 : (X ++ (113 :: d :: (m ++ 81 :: Y)))[X.length]? = some 113 := by
    have h00 := hgetX 0
    rw [List.getElem?_cons_zero] at h00
    simpa using h00
  have h1 : (X ++ (113 :: d :: (m ++ 81 :: Y)))[X.length + 1]? = some d := by
    have h01 := hgetX 1
    rw [List.getElem?_cons_succ, List.getElem?_cons_zero] at h01
    exact h01
  rw [qMatchEnd]
  simp only [h0, h1]
  rw [if_pos (by exact ⟨trivial, hd⟩)]
  have h81 : (X ++ (113 :: d :: (m ++ 81 :: Y)))[X.length + (m.length + 2)]? = some 81 := by
    rw [hgetX (m.length + 2), List.getElem?_cons_succ, List.getElem?_cons_succ,
      List.getElem?_append_right le_rfl, Nat.sub_self, List.getElem?_cons_zero]
  obtain ⟨hlt, heq⟩ := List.getElem?_eq_some.mp h81
  apply findFrom_complete _ _ _ _ hlt heq (by omega)
  intro i hi1 hi2 heqi
  obtain ⟨r2, hr2⟩ : ∃ r2, i = X.length + (r2 + 2) := ⟨i - X.length - 2, by omega⟩
  rw [hr2, hgetX (r2 + 2), List.getElem?_cons_succ, List.getElem?_cons_succ,
    List.getElem?_append, if_pos (by omega)] at heqi
  exact hm (List.getElem?_mem heqi)

theorem slice_at_block (X m Y : List Nat) (d : Nat) :
    slice (X ++ (113 :: d :: (m ++ 81 :: Y))) X.length (X.length + (m.length + 3)) =
      113 :: d :: (m ++ [81]) := by
  rw [slice]
  have hdrop : (X ++ (113 :: d :: (m ++ 81 :: Y))).drop X.length =
      113 :: d :: (m ++ 81 :: Y) := by
    rw [List.drop_append_eq_append_drop, List.drop_eq_nil_of_le le_rfl]
    simp
  rw [hdrop, show X.length + (m.length + 3) - X.length = m.length + 3 from by omega]
  rw [show m.length + 3 = (m.length + 2) + 1 from by omega, List.take_succ_cons,
    show m.length + 2 = (m.length + 1) + 1 from by omega, List.take_succ_cons,
    List.take_append_eq_append_take, List.take_of_length_le (by omega),
    show m.length + 1 - m.length = 1 from by omega]
  simp

theorem findBlocksGo_at_block (X m Y : List Nat) (d : Nat)
    (hd : isWsB d = true) (hm : 81 ∉ m) :
    findBlocksGo (X ++ (113 :: d :: (m ++ 81 :: Y))) X.length =
      (113 :: d :: (m ++ [81])) ::
        findBlocksGo (X ++ (113 :: d :: (m ++ 81 :: Y))) (X.length + (m.length + 3)) := by
  have hlen : (X ++ (113 :: d :: (m ++ 81 :: Y))).length =
      X.length + (m.length + 3) + Y.length := by
    simp only [List.length_append, List.length_cons]
    try omega
  have hp : X.length < (X ++ (113 :: d :: (m ++ 81 :: Y))).length := by omega
  rw [findBlocksGo, findBlocksGoF, if_pos hp]
  simp only [qMatchEnd_at_block X m Y d hd hm]
  rw [show X.length + (m.length + 2) + 1 = X.length + (m.length + 3) from by omega,
    slice_at_block X m Y d, findBlocksGo]
  rw [findBlocksGoF_fuel_irrel (X ++ (113 :: d :: (m ++ 81 :: Y)))
    ((X ++ (113 :: d :: (m ++ 81 :: Y))).length)
    ((X ++ (113 :: d :: (m ++ 81 :: Y))).length + 1)
    (X.length + (m.length + 3)) (by omega) (by omega)]

/-- On a stream `A ++ blk1 ++ B ++ blk2 ++ C` with `A,B,C` free of the
block delimiters and `q\s...Q`-shaped blocks, the regex findall returns
exactly the two blocks. -/
theorem findBlocks_shape (A B C m1 m2 : List Nat) (d1 d2 : Nat)
    (hd1 : isWsB d1 = true) (hd2 : isWsB d2 = true)
    (hA : 113 ∉ A) (hB : 113 ∉ B) (hC : 113 ∉ C) (hm1 : 81 ∉ m1) (hm2 : 81 ∉ m2) :
    findBlocks (A ++ (113 :: d1 :: (m1 ++ [81])) ++ B ++ (113 :: d2 :: (m2 ++ [81])) ++ C) =
      [113 :: d1 :: (m1 ++ [81]), 113 :: d2 :: (m2 ++ [81])] := by
  have hlb1 : ((113 : Nat) :: d1 :: (m1 ++ [81])).length = m1.length + 3 := by
    simp only [List.length_cons, List.length_append, List.length_nil]
    try omega
  have hlb2 : ((113 : Nat) :: d2 :: (m2 ++ [81])).length = m2.length + 3 := by
    simp only [List.length_cons, List.length_append, List.length_nil]
    try omega
  have hl2 : (A ++ (113 :: d1 :: (m1 ++ [81]))).length = A.length + (m1.length + 3) := by
    simp only [List.length_append, hlb1]
  have hl3 : (A ++ (113 :: d1 :: (m1 ++ [81])) ++ B).length =
      A.length + (m1.length + 3) + B.length := by
    simp only [List.length_append, hlb1]
  have hl4 : (A ++ (113 :: d1 :: (m1 ++ [81])) ++ B ++ (113 :: d2 :: (m2 ++ [81]))).length =
      A.length + (m1.length + 3) + B.length + (m2.length + 3) := by
    simp only [List.length_append, hlb1, hlb2]
  have hS1 : A ++ (113 :: d1 :: (m1 ++ [81])) ++ B ++ (113 :: d2 :: (m2 ++ [81])) ++ C =
      A ++ (113 :: d1 :: (m1 ++ 81 :: (B ++ (113 :: d2 :: (m2 ++ [81])) ++ C))) := by
    simp
  have hS2 : A ++ (113 :: d1 :: (m1 ++ [81])) ++ B ++ (113 :: d2 :: (m2 ++ [81])) ++ C =
      (A ++ (113 :: d1 :: (m1 ++ [81])) ++ B) ++ (113 :: d2 :: (m2 ++ 81 :: C)) := by
    simp
  have hlenS : (A ++ (113 :: d1 :: (m1 ++ [81])) ++ B ++
      (113 :: d2 :: (m2 ++ [81])) ++ C).length =
      A.length + (m1.length + 3) + B.length + (m2.length + 3) + C.length := by
    simp only [List.length_append, hlb1, hlb2]
    try omega
  rw [findBlocks]
  have hskipA : findBlocksGo
      (A ++ (113 :: d1 :: (m1 ++ [81])) ++ B ++ (113 :: d2 :: (m2 ++ [81])) ++ C) 0 =
      findBlocksGo (A ++ (113 :: d1 :: (m1 ++ [81])) ++ B ++ (113 :: d2 :: (m2 ++ [81])) ++ C)
        A.length := by
    have hno : ∀ q, 0 ≤ q → q < 0 + A.length →
        (A ++ (113 :: d1 :: (m1 ++ [81])) ++ B ++
          (113 :: d2 :: (m2 ++ [81])) ++ C)[q]? ≠ some 113 := by
      intro q _ hq heq
      rw [List.getElem?_append, if_pos (by rw [hl4]; omega), List.getElem?_append,
        if_pos (by rw [hl3]; omega), List.getElem?_append, if_pos (by rw [hl2]; omega),
        List.getElem?_append, if_pos (by omega)] at heq
      exact hA (List.getElem?_mem heq)
    have h := findBlocksGo_skip
      (A ++ (113 :: d1 :: (m1 ++ [81])) ++ B ++ (113 :: d2 :: (m2 ++ [81])) ++ C)
      A.length 0 hno
    simpa using h
  rw [hskipA]
  have hstep1 := findBlocksGo_at_block A m1 (B ++ (113 :: d2 :: (m2 ++ [81])) ++ C) d1 hd1 hm1
  rw [← hS1] at hstep1
  rw [hstep1]
  have hskipB : findBlocksGo
      (A ++ (113 :: d1 :: (m1 ++ [81])) ++ B ++ (113 :: d2 :: (m2 ++ [81])) ++ C)
        (A.length + (m1.length + 3)) =
      findBlocksGo (A ++ (113 :: d1 :: (m1 ++ [81])) ++ B ++ (113 :: d2 :: (m2 ++ [81])) ++ C)
        (A.length + (m1.length + 3) + B.length) := by
    have hno : ∀ q, A.length + (m1.length + 3) ≤ q →
        q < A.length + (m1.length + 3) + B.length →
        (A ++ (113 :: d1 :: (m1 ++ [81])) ++ B ++
          (113 :: d2 :: (m2 ++ [81])) ++ C)[q]? ≠ some 113 := by
      intro q hq1 hq2 heq
      rw [List.getElem?_append, if_pos (by rw [hl4]; omega), List.getElem?_append,
        if_pos (by rw [hl3]; omega), List.getElem?_append,
        if_neg (by rw [hl2]; omega)] at heq
      exact hB (List.getElem?_mem heq)
    exact findBlocksGo_skip
      (A ++ (113 :: d1 :: (m1 ++ [81])) ++ B ++ (113 :: d2 :: (m2 ++ [81])) ++ C) B.length
      (A.length + (m1.length + 3)) hno
  rw [hskipB]
  have hstep2 := findBlocksGo_at_block (A ++ (113 :: d1 :: (m1 ++ [81])) ++ B) m2 C d2 hd2 hm2
  have hlX : (A ++ (113 :: d1 :: (m1 ++ [81])) ++ B).length =
      A.length + (m1.length + 3) + B.length := by
    simp only [List.length_append, hlb1]
    try omega
  rw [← hS2, hlX] at hstep2
  rw [hstep2]
  have hskipC : findBlocksGo
      (A ++ (113 :: d1 :: (m1 ++ [81])) ++ B ++ (113 :: d2 :: (m2 ++ [81])) ++ C)
        (A.length + (m1.length + 3) + B.length + (m2.length + 3)) =
      findBlocksGo (A ++ (113 :: d1 :: (m1 ++ [81])) ++ B ++ (113 :: d2 :: (m2 ++ [81])) ++ C)
        (A.length + (m1.length + 3) + B.length + (m2.length + 3) + C.length) := by
    have hno : ∀ q, A.length + (m1.length + 3) + B.length + (m2.length + 3) ≤ q →
        q < A.length + (m1.length + 3) + B.length + (m2.length + 3) + C.length →
        (A ++ (113 :: d1 :: (m1 ++ [81])) ++ B ++
          (113 :: d2 :: (m2 ++ [81])) ++ C)[q]? ≠ some 113 := by
      intro q hq1 hq2 heq
      rw [List.getElem?_append, if_neg (by rw [hl4]; omega)] at heq
      exact hC (List.getElem?_mem heq)
    exact findBlocksGo_skip
      (A ++ (113 :: d1 :: (m1 ++ [81])) ++ B ++ (113 :: d2 :: (m2 ++ [81])) ++ C) C.length
      (A.length + (m1.length + 3) + B.length + (m2.length + 3)) hno
  rw [hskipC, findBlocksGo_nil_of_ge _ _ (by omega)]

theorem S_getElem_cases (A B C m1 m2 : List Nat) (d1 d2 : Nat) (j b : Nat)
    (h : (A ++ (113 :: d1 :: (m1 ++ [81])) ++ B ++
      (113 :: d2 :: (m2 ++ [81])) ++ C)[j]? = some b) :
    b ∈ A ∨ b ∈ B ∨ b ∈ C ∨
    (∃ r, j = A.length + r ∧
      ((r = 0 ∧ b = 113) ∨ (r = 1 ∧ b = d1) ∨ (2 ≤ r ∧ r < m1.length + 2 ∧ b ∈ m1) ∨
        (r = m1.length + 2 ∧ b = 81))) ∨
    (∃ r, j = A.length + (m1.length + 3) + B.length + r ∧
      ((r = 0 ∧ b = 113) ∨ (r = 1 ∧ b = d2) ∨ (2 ≤ r ∧ r < m2.length + 2 ∧ b ∈ m2) ∨
        (r = m2.length + 2 ∧ b = 81))) := by
  have hlb1 : ((113 : Nat) :: d1 :: (m1 ++ [81])).length = m1.length + 3 := by
    simp only [List.length_cons, List.length_append, List.length_nil]
    try omega
  have hl2 : (A ++ (113 :: d1 :: (m1 ++ [81]))).length = A.length + (m1.length + 3) := by
    simp only [List.length_append, hlb1]
  have hl3 : (A ++ (113 :: d1 :: (m1 ++ [81])) ++ B).length =
      A.length + (m1.length + 3) + B.length := by
    simp only [List.length_append, hlb1]
  rw [List.getElem?_append] at h
  by_cases h4 : j < (A ++ (113 :: d1 :: (m1 ++ [81])) ++ B ++
      (113 :: d2 :: (m2 ++ [81]))).length
  · rw [if_pos h4] at h
    rw [List.getElem?_append] at h
    by_cases h3 : j < (A ++ (113 :: d1 :: (m1 ++ [81])) ++ B).length
    · rw [if_pos h3] at h
      rw [List.getElem?_append] at h
      by_cases h2 : j < (A ++ (113 :: d1 :: (m1 ++ [81]))).length
      · rw [if_pos h2] at h
        rw [List.getElem?_append] at h
        by_cases h1 : j < A.length
        · rw [if_pos h1] at h
          exact Or.inl (List.getElem?_mem h)
        · rw [if_neg h1] at h
          exact Or.inr (Or.inr (Or.inr (Or.inl
            ⟨j - A.length, by omega, block_getElem_eq d1 m1 (j - A.length) b h⟩)))
      · rw [if_neg h2] at h
        exact Or.inr (Or.inl (List.getElem?_mem h))
    · rw [if_neg h3] at h
      have hc := block_getElem_eq d2 m2
        (j - (A ++ (113 :: d1 :: (m1 ++ [81])) ++ B).length) b h
      rw [hl3] at hc h3
      exact Or.inr (Or.inr (Or.inr (Or.inr
        ⟨j - (A.length + (m1.length + 3) + B.length), by omega, hc⟩)))
  · rw [if_neg h4] at h
    exact Or.inr (Or.inr (Or.inl (List.getElem?_mem h)))

theorem S_q_positions (A B C m1 m2 : List Nat) (d1 d2 : Nat) (j : Nat)
    (hd1 : isWsB d1 = true) (hd2 : isWsB d2 = true)
    (hA : 113 ∉ A) (hB : 113 ∉ B) (hC : 113 ∉ C) (hm1 : 113 ∉ m1) (hm2 : 113 ∉ m2)
    (h : (A ++ (113 :: d1 :: (m1 ++ [81])) ++ B ++
      (113 :: d2 :: (m2 ++ [81])) ++ C)[j]? = some 113) :
    j = A.length ∨ j = A.length + (m1.length + 3) + B.length := by
  rcases S_getElem_cases A B C m1 m2 d1 d2 j 113 h with
    hm | hm | hm | ⟨r, hr, hc⟩ | ⟨r, hr, hc⟩
  · exact absurd hm hA
  · exact absurd hm hB
  · exact absurd hm hC
  · rcases hc with ⟨rfl, _⟩ | ⟨_, hd⟩ | ⟨_, _, hmem⟩ | ⟨_, hb⟩
    · left; omega
    · exact absurd hd.symm (isWsB_ne_qQ hd1).1
    · exact absurd hmem hm1
    · omega
  · rcases hc with ⟨rfl, _⟩ | ⟨_, hd⟩ | ⟨_, _, hmem⟩ | ⟨_, hb⟩
    · right; omega
    · exact absurd hd.symm (isWsB_ne_qQ hd2).1
    · exact absurd hmem hm2
    · omega

theorem S_Q_positions (A B C m1 m2 : List Nat) (d1 d2 : Nat) (p : Nat)
    (hd1 : isWsB d1 = true) (hd2 : isWsB d2 = true)
    (hA : 81 ∉ A) (hB : 81 ∉ B) (hC : 81 ∉ C) (hm1 : 81 ∉ m1) (hm2 : 81 ∉ m2)
    (h : (A ++ (113 :: d1 :: (m1 ++ [81])) ++ B ++
      (113 :: d2 :: (m2 ++ [81])) ++ C)[p]? = some 81) :
    p = A.length + (m1.length + 2) ∨
      p = A.length + (m1.length + 3) + B.length + (m2.length + 2) := by
  rcases S_getElem_cases A B C m1 m2 d1 d2 p 81 h with
    hm | hm | hm | ⟨r, hr, hc⟩ | ⟨r, hr, hc⟩
  · exact absurd hm hA
  · exact absurd hm hB
  · exact absurd hm hC
  · rcases hc with ⟨_, hb⟩ | ⟨_, hd⟩ | ⟨_, _, hmem⟩ | ⟨rfl, _⟩
    · omega
    · exact absurd hd.symm (isWsB_ne_qQ hd1).2
    · exact absurd hmem hm1
    · left; omega
  · rcases hc with ⟨_, hb⟩ | ⟨_, hd⟩ | ⟨_, _, hmem⟩ | ⟨rfl, _⟩
    · omega
    · exact absurd hd.symm (isWsB_ne_qQ hd2).2
    · exact absurd hmem hm2
    · right; omega

/-- On the C4 stream shape, the second block's byte string occurs only at
its own position. -/
theorem blk2_occurrence_unique (A B C m1 m2 : List Nat) (d1 d2 : Nat)
    (hd1 : isWsB d1 = true) (hd2 : isWsB d2 = true)
    (hA : 113 ∉ A ∧ 81 ∉ A) (hB : 113 ∉ B ∧ 81 ∉ B) (hC : 113 ∉ C ∧ 81 ∉ C)
    (hm1 : 113 ∉ m1 ∧ 81 ∉ m1) (hm2 : 113 ∉ m2 ∧ 81 ∉ m2)
    (hneq : (113 : Nat) :: d2 :: (m2 ++ [81]) ≠ 113 :: d1 :: (m1 ++ [81])) :
    ∀ j, occursAt (113 :: d2 :: (m2 ++ [81]))
        (A ++ (113 :: d1 :: (m1 ++ [81])) ++ B ++ (113 :: d2 :: (m2 ++ [81])) ++ C)
        j = true →
      j = A.length + (m1.length + 3) + B.length := by
  have hlb1 : ((113 : Nat) :: d1 :: (m1 ++ [81])).length = m1.length + 3 := by
    simp only [List.length_cons, List.length_append, List.length_nil]
    try omega
  have hlb2 : ((113 : Nat) :: d2 :: (m2 ++ [81])).length = m2.length + 3 := by
    simp only [List.length_cons, List.length_append, List.length_nil]
    try omega
  intro j hocc
  have h0 := occursAt_getElem? _ _ j 0 hocc (by rw [hlb2]; omega)
  rw [List.getElem?_cons_zero] at h0
  have hq : (A ++ (113 :: d1 :: (m1 ++ [81])) ++ B ++
      (113 :: d2 :: (m2 ++ [81])) ++ C)[j]? = some 113 := by simpa using h0
  rcases S_q_positions A B C m1 m2 d1 d2 j hd1 hd2 hA.1 hB.1 hC.1 hm1.1 hm2.1 hq with
    hjA | hjB
  · exfalso
    subst hjA
    have h81 := occursAt_getElem? _ _ A.length (m2.length + 2) hocc (by rw [hlb2]; omega)
    rw [List.getElem?_cons_succ, List.getElem?_cons_succ,
      List.getElem?_append_right le_rfl, Nat.sub_self, List.getElem?_cons_zero] at h81
    rcases S_Q_positions A B C m1 m2 d1 d2 _ hd1 hd2 hA.2 hB.2 hC.2 hm1.2 hm2.2 h81 with
      hp1 | hp2
    · have hmm : m1.length = m2.length := by omega
      have htake := (occursAt_iff _ _ _).mp hocc
      have hassoc : A ++ (113 :: d1 :: (m1 ++ [81])) ++ B ++
          (113 :: d2 :: (m2 ++ [81])) ++ C =
          A ++ ((113 :: d1 :: (m1 ++ [81])) ++
            (B ++ ((113 :: d2 :: (m2 ++ [81])) ++ C))) := by
        simp
      rw [hassoc, List.drop_append_eq_append_drop, List.drop_eq_nil_of_le le_rfl,
        Nat.sub_self, List.drop_zero, List.nil_append] at htake
      rw [show ((113 : Nat) :: d2 :: (m2 ++ [81])).length =
        ((113 : Nat) :: d1 :: (m1 ++ [81])).length from by rw [hlb1, hlb2]; omega] at htake
      rw [List.take_left] at htake
      exact hneq htake.symm
    · omega
  · exact hjB

/-- C4.  On a content stream `A ++ q⟨ws⟩m1 Q ++ B ++ q⟨ws⟩m2 Q ++ C` whose
regions `A`, `B`, `C` and block interiors contain no block delimiters
(`q` = 113, `Q` = 81), where the winning run `P` occurs in the second
block and not in the first, the per-page removal deletes exactly the whole
second block — the rewritten stream is `A ++ q⟨ws⟩m1 Q ++ B ++ C` with
every untouched byte preserved in order — and reports exactly one removed
block (so the stream is updated). -/
theorem blockRemoval_exact (A B C m1 m2 P : List Nat) (d1 d2 : Nat)
    (hd1 : isWsB d1 = true) (hd2 : isWsB d2 = true)
    (hA : 113 ∉ A ∧ 81 ∉ A) (hB : 113 ∉ B ∧ 81 ∉ B) (hC : 113 ∉ C ∧ 81 ∉ C)
    (hm1 : 113 ∉ m1 ∧ 81 ∉ m1) (hm2 : 113 ∉ m2 ∧ 81 ∉ m2)
    (hP1 : containsSub (113 :: d1 :: (m1 ++ [81])) P = false)
    (hP2 : containsSub (113 :: d2 :: (m2 ++ [81])) P = true) :
    removeFromStream P
        (A ++ (113 :: d1 :: (m1 ++ [81])) ++ B ++ (113 :: d2 :: (m2 ++ [81])) ++ C) =
      (A ++ (113 :: d1 :: (m1 ++ [81])) ++ B ++ C, 1) := by
  have hlb1 : ((113 : Nat) :: d1 :: (m1 ++ [81])).length = m1.length + 3 := by
    simp only [List.length_cons, List.length_append, List.length_nil]
    try omega
  have hl3 : (A ++ (113 :: d1 :: (m1 ++ [81])) ++ B).length =
      A.length + (m1.length + 3) + B.length := by
    simp only [List.length_append, hlb1]
  have hneq : (113 : Nat) :: d2 :: (m2 ++ [81]) ≠ 113 :: d1 :: (m1 ++ [81]) := by
    intro h
    rw [← h] at hP1
    rw [hP2] at hP1
    exact absurd hP1 (by simp)  -- the two blocks would agree on containing P
  rw [removeFromStream,
    findBlocks_shape A B C m1 m2 d1 d2 hd1 hd2 hA.1 hB.1 hC.1 hm1.2 hm2.2,
    List.foldl_cons, if_neg (by rw [hP1]; exact Bool.false_ne_true), List.foldl_cons,
    if_pos hP2, List.foldl_nil]
  refine Prod.ext ?_ rfl
  have hrepl := replaceAll_single (113 :: d2 :: (m2 ++ [81])) (by simp)
    (A ++ (113 :: d1 :: (m1 ++ [81])) ++ B) C ?_
  · exact hrepl
  · intro j hj
    rw [hl3]
    exact blk2_occurrence_unique A B C m1 m2 d1 d2 hd1 hd2 hA hB hC hm1 hm2 hneq j hj

/-- C4 witness at a concrete stream: `A q (wm) Tj Q B q x(wm) Tjy Q C`
shaped bytes with the winner only in the second block. -/
theorem blockRemoval_exact_witness :
    isWsB 32 = true ∧
      removeFromStream [40, 119, 109, 41, 32, 84, 106]
        ([65] ++ (113 :: 32 :: ([120] ++ [81])) ++ [66] ++
          (113 :: 32 :: ([40, 119, 109, 41, 32, 84, 106, 32] ++ [81])) ++ [67]) =
      ([65] ++ (113 :: 32 :: ([120] ++ [81])) ++ [66] ++ [67], 1) :=
  ⟨by decide,
    blockRemoval_exact [65] [66] [67] [120] [40, 119, 109, 41, 32, 84, 106, 32]
      [40, 119, 109, 41, 32, 84, 106] 32 32 (by decide) (by decide) (by decide)
      (by decide) (by decide) (by decide) (by decide) (by decide) (by decide)⟩

/-- C10.  `Config` is a process-wide singleton: in any sequence of
`Config(config_file)` calls, every call returns the instance the first call
created (initialised from the first call's `config_file`); the
`config_file` argument of every later call is ignored. -/
theorem config_singleton (cf0 : Option String) (rest : List (Option String)) :
    configCalls (cf0 :: rest) none =
      List.replicate (rest.length + 1) (initConfig cf0) := by
  rw [configCalls]
  have hstep : ∀ (l : List (Option String)) (inst : ConfigData),
      configCalls l (some inst) = List.replicate l.length inst := by
    intro l
    induction l with
    | nil => intro inst; rfl
    | cons cf rest ih =>
      intro inst
      rw [configCalls]
      simp only [configNew]
      rw [ih inst]
      rfl
  simp only [configNew]
  rw [hstep rest (initConfig cf0)]
  rfl

end WmRemove
